import Mathlib

/-!
Verification of the magwi hook engine against its design specification.

The Rust sources are embedded shallowly:

* machine integers (`u32`, `i64`, `usize`) are modelled as `Nat` / `Int`.
  Every arithmetic operation of the embedded code is overflow-free in the
  source's integer ranges (addresses are `u32`, offsets are computed in
  `i64`, buffer indices in 64-bit `usize`), so no wrap-around modelling is
  required; where the source masks bits (`& 0xFFFFFF`, `& 0xFF000000`) the
  embedding uses the same bitwise operators on `Nat`, and `i64 & 0xFFFFFF`
  (a sign-agnostic 24-bit mask on two's complement) is embedded as the
  Euclidean remainder `% 0x1000000`, which agrees with it on all `i64`
  values.  Rust's `/` on `i64` truncates towards zero; it is embedded as
  `Int` division, which agrees with it on the non-negative numerators that
  occur here.
* fallible functions return `Option` / `Except`.
* `&mut self` methods become functions from the receiver to `Except err state`;
  the Rust originals perform all their checks before the first mutation, so
  an error result leaves the receiver unchanged.

Strings are modelled as `List Char`, byte buffers and byte strings as
`List Nat` (each element `< 256` in the source).
-/

namespace Magwi

instance {ε α : Type} [DecidableEq ε] [DecidableEq α] :
    DecidableEq (Except ε α)
  | .ok a, .ok b =>
    if h : a = b then .isTrue (by rw [h])
    else .isFalse (fun hc => h (Except.ok.inj hc))
  | .error a, .error b =>
    if h : a = b then .isTrue (by rw [h])
    else .isFalse (fun hc => h (Except.error.inj hc))
  | .ok _, .error _ => .isFalse (fun hc => Except.noConfusion hc)
  | .error _, .ok _ => .isFalse (fun hc => Except.noConfusion hc)

/-! ## ARM encoder (src/hook/arm.rs) -/

/-- Embeds `enum ArmCondition` from `src/hook/arm.rs`. -/
inductive ArmCondition where
  | eq | ne | cs | cc | mi | pl | vs | vc
  | hi | ls | ge | lt | gt | le | al | nv
deriving DecidableEq, Repr

/-- Discriminant of `ArmCondition` (the `#[repr(u8)]` values). -/
def ArmCondition.val : ArmCondition → Nat
  | .eq => 0x0 | .ne => 0x1 | .cs => 0x2 | .cc => 0x3
  | .mi => 0x4 | .pl => 0x5 | .vs => 0x6 | .vc => 0x7
  | .hi => 0x8 | .ls => 0x9 | .ge => 0xA | .lt => 0xB
  | .gt => 0xC | .le => 0xD | .al => 0xE | .nv => 0xF

/-- Embeds `struct ArmBranch` from `src/hook/arm.rs`. -/
structure ArmBranch where
  condition : ArmCondition
  link : Bool
  from_addr : Nat
deriving DecidableEq, Repr

/-- Embeds `ArmBranch::to_u32` from `src/hook/arm.rs` (lines 63-78). -/
def ArmBranch.to_u32 (b : ArmBranch) (to_addr : Nat) : Option Nat :=
  let offset : Int := (to_addr : Int) / 4 - (b.from_addr : Int) / 4 - 2
  if offset < -0x1000000 ∨ offset > 0xFFFFFF then none
  else
    some ((0b101 <<< 25) ||| (b.condition.val <<< 28) |||
      ((if b.link then 1 else 0) <<< 24) ||| (offset % 0x1000000).toNat)

/-- Embeds `make_branch_u32` from `src/hook/arm.rs`. -/
def make_branch_u32 (link : Bool) (from_addr to_addr : Nat)
    (condition : ArmCondition) : Option Nat :=
  ArmBranch.to_u32 ⟨condition, link, from_addr⟩ to_addr

/-- Embeds `relocate_u32` from `src/hook/arm.rs` (lines 129-150). -/
def relocate_u32 (val src_address dest_address : Nat) : Option Nat :=
  let nybble14 := (val >>> 24) &&& 0xF
  if nybble14 = 0xA ∨ nybble14 = 0xB then
    let r := val &&& 0xFF000000
    let old_offset : Int := ((val : Int) % 0x1000000 + 2) * 4
    let b_dest_address : Int := (src_address : Int) + old_offset
    let new_offset : Int := b_dest_address / 4 - (dest_address : Int) / 4 - 2
    if new_offset < -0x1000000 ∨ new_offset > 0xFFFFFF then none
    else some (r ||| (new_offset % 0x1000000).toNat)
  else some val

/-- Specification-side decoder: sign-extend a 24-bit branch offset field. -/
def signExtend24 (n : Nat) : Int :=
  if n < 0x800000 then (n : Int) else (n : Int) - 0x1000000

/-- Specification-side decoder: the destination of the B/BL word `w` hosted at
address `at_addr` (sign-extend the low 24 bits, multiply by 4, add
`at_addr + 8`). -/
def branchDestination (w at_addr : Nat) : Int :=
  (at_addr : Int) + 8 + 4 * signExtend24 (w % 0x1000000)

/-- Instruction offset of a branch from `from_addr` to `to_addr`, as the
specification defines it (`(to/4) - (from/4) - 2`). -/
def instrOffset (from_addr to_addr : Nat) : Int :=
  (to_addr : Int) / 4 - (from_addr : Int) / 4 - 2

/-! ## Patch writer (src/hook/writer.rs) -/

/-- Embeds `enum HookExtraPos` from `src/hook/writer.rs`. -/
inductive HookExtraPos where
  | loader
  | tail
deriving DecidableEq, Repr

/-- Embeds `struct HookLocation` from `src/hook/location.rs`; the `PathBuf`
is modelled as its byte sequence. -/
structure HookLocation where
  file : List Nat
  line : Nat
deriving DecidableEq, Repr

/-- Embeds `enum HookWriteReason` from `src/hook/writer.rs`. -/
inductive HookWriteReason where
  | misc
  | code
  | loader
  | hook (locations : List HookLocation)
deriving DecidableEq, Repr

/-- Embeds `enum WriterError` from `src/hook/error.rs`. -/
inductive WriterError where
  | outOfBoundsRead (address : Nat) (size : Nat)
  | outOfBoundsWrite (address : Nat) (size : Nat)
  | resizeBelowBaseAddress (address : Nat)
  | loaderExtraAddressNotSet
  | duplicateWrite (address : Nat) (size : Nat)
deriving DecidableEq, Repr

/-- Embeds `struct HookWriter` from `src/hook/writer.rs`.  The
`BTreeMap<u32, (u32, HookWriteReason)>` ledger is modelled as an association
list `(address, size, reason)` kept sorted by strictly increasing address —
exactly the order a `BTreeMap` iterates in. -/
structure HookWriter where
  base_address : Nat
  loader_extra_address : Option Nat
  buffer : List Nat
  duplicate_write_check : Bool
  write_reasons : List (Nat × Nat × HookWriteReason)
deriving DecidableEq, Repr

/-- Embeds `HookWriter::new`. -/
def HookWriter.new (base_address : Nat) (buffer : List Nat) : HookWriter :=
  ⟨base_address, none, buffer, true, []⟩

/-- Embeds `HookWriter::end_address` (`base_address + buffer.len()`). -/
def HookWriter.end_address (w : HookWriter) : Nat :=
  w.base_address + w.buffer.length

/-- Embeds `BTreeMap::insert` on the sorted ledger list: insert at the sorted
position, replacing an entry with an equal key. -/
def ledgerInsert : List (Nat × Nat × HookWriteReason) → Nat → Nat →
    HookWriteReason → List (Nat × Nat × HookWriteReason)
  | [], a, s, r => [(a, s, r)]
  | e :: t, a, s, r =>
    if a < e.1 then (a, s, r) :: e :: t
    else if a = e.1 then (a, s, r) :: t
    else e :: ledgerInsert t a s r

/-- Embeds `HookWriter::find_duplicate_write` (lines 78-88):
`self.write_reasons.range(..address + size).next_back()` is the ledger entry
with the greatest key below `address + size`; on the sorted list this is the
last element of the filtered list. -/
def HookWriter.find_duplicate_write (w : HookWriter) (address size : Nat) :
    Option HookWriteReason :=
  match (w.write_reasons.filter (fun e => e.1 < address + size)).getLast? with
  | some e => if e.2.1 + e.1 > address then some e.2.2 else none
  | none => none

/-- Splices `data` into `buf` at `offset` (the semantics of
`self.buffer[offset..offset + data.len()].copy_from_slice(data)` under the
bounds checks that precede it). -/
def spliceBytes (buf : List Nat) (offset : Nat) (data : List Nat) : List Nat :=
  buf.take offset ++ data ++ buf.drop (offset + data.length)

/-- Embeds `HookWriter::write` (lines 90-113). -/
def HookWriter.write (w : HookWriter) (address : Nat) (data : List Nat) :
    Except WriterError HookWriter :=
  if address < w.base_address then
    .error (.outOfBoundsWrite address data.length)
  else
    let offset := address - w.base_address
    if offset + data.length > w.buffer.length then
      .error (.outOfBoundsWrite address data.length)
    else if w.duplicate_write_check ∧
        (w.find_duplicate_write address data.length).isSome then
      .error (.duplicateWrite address data.length)
    else
      .ok { w with
        buffer := spliceBytes w.buffer offset data,
        write_reasons :=
          ledgerInsert w.write_reasons address data.length .misc }

/-- Embeds `HookWriter::write_end` (append, no ledger record, never fails). -/
def HookWriter.write_end (w : HookWriter) (data : List Nat) :
    Except WriterError HookWriter :=
  .ok { w with buffer := w.buffer ++ data }

/-- Embeds `Vec::resize(n, 0)`. -/
def resizeList (buf : List Nat) (n : Nat) : List Nat :=
  buf.take n ++ List.replicate (n - buf.length) 0

/-- Embeds `HookWriter::resize_until` (lines 148-157). -/
def HookWriter.resize_until (w : HookWriter) (until_address : Nat) :
    Except WriterError HookWriter :=
  if until_address < w.base_address then
    .error (.resizeBelowBaseAddress until_address)
  else
    .ok { w with buffer := resizeList w.buffer (until_address - w.base_address) }

/-- Embeds `HookWriter::set_loader_extra_address`. -/
def HookWriter.set_loader_extra_address (w : HookWriter) (address : Nat) :
    HookWriter :=
  { w with loader_extra_address := some address }

/-- The specification's overlap relation on half-open byte intervals
(§4.6: the interval starting at `s` of `sz` bytes collides with a write of
`l` bytes at `a` iff `s < a + l` and its end exceeds `a`). -/
def intervalsOverlap (s sz a l : Nat) : Prop :=
  s < a + l ∧ a < s + sz

instance (s sz a l : Nat) : Decidable (intervalsOverlap s sz a l) := by
  unfold intervalsOverlap; infer_instance

/-- Ledger well-formedness: entries are sorted by strictly increasing address
(`BTreeMap` key order) and earlier recorded intervals end at or before later
ones start — the spec's "two entries never overlap" invariant. -/
def LedgerInv (led : List (Nat × Nat × HookWriteReason)) : Prop :=
  led.Pairwise (fun x y => x.1 + x.2.1 ≤ y.1 ∧ x.1 < y.1)

instance (led : List (Nat × Nat × HookWriteReason)) : Decidable (LedgerInv led) := by
  unfold LedgerInv; infer_instance

/-- Writer states reachable through the public mutating interface. -/
inductive Reachable : HookWriter → Prop where
  | new (base : Nat) (buffer : List Nat) : Reachable (HookWriter.new base buffer)
  | write {w w' : HookWriter} {a : Nat} {d : List Nat} :
      Reachable w → w.write a d = .ok w' → Reachable w'
  | write_end {w w' : HookWriter} {d : List Nat} :
      Reachable w → w.write_end d = .ok w' → Reachable w'
  | resize {w w' : HookWriter} {a : Nat} :
      Reachable w → w.resize_until a = .ok w' → Reachable w'
  | set_loader {w : HookWriter} {a : Nat} :
      Reachable w → Reachable (w.set_loader_extra_address a)

/-! ## Pre/post hook dispatch (src/main.rs, `run`) -/

/-- Embeds `struct PrePostEntry` from `src/main.rs` (line 384). -/
structure PrePostEntry where
  extra_pos : HookExtraPos
  pre : List (Nat × HookLocation)
  post : List (Nat × HookLocation)
deriving DecidableEq, Repr

/-- The `HashMap<u32, PrePostEntry>` of `run`, modelled as an association
list (lookup by key; insertion replaces the entry with the same key). -/
def PrePostMap := List (Nat × PrePostEntry)

/-- Lookup in the pre/post map. -/
def PrePostMap.lookup (m : PrePostMap) (k : Nat) : Option PrePostEntry :=
  match m.find? (fun p => p.1 = k) with
  | some p => some p.2
  | none => none

/-- Insert/replace in the pre/post map. -/
def PrePostMap.insert (m : PrePostMap) (k : Nat) (v : PrePostEntry) :
    PrePostMap :=
  match m with
  | [] => [(k, v)]
  | p :: t => if p.1 = k then (k, v) :: t else p :: PrePostMap.insert t k v

instance : DecidableEq PrePostMap :=
  inferInstanceAs (DecidableEq (List (Nat × PrePostEntry)))

/-- Errors of the dispatch steps (`BuildError::Hook` payloads of
`src/main.rs`; the formatted message is reduced to its discriminating
data). -/
inductive DispatchError where
  | differentSections (from_addr : Nat)
  | invalidOpcodePosition (opcode : List Char)
deriving DecidableEq, Repr

/-- Embeds the `HookKind::Pre(from_addr) | HookKind::Post(from_addr)` arm of
the symbol-hook loop in `run` (src/main.rs lines 425-454): pick the arena
from `from_addr < custom_text_address`, fetch or create the entry, fail if
the stored arena differs, else append the callback to the `pre` or `post`
list. -/
def processSymbolPrePost (custom_text_address : Nat) (m : PrePostMap)
    (isPre : Bool) (from_addr symbol_address : Nat) (loc : HookLocation) :
    Except DispatchError PrePostMap :=
  let extra_pos : HookExtraPos :=
    if from_addr < custom_text_address then .loader else .tail
  let entry := (m.lookup from_addr).getD ⟨extra_pos, [], []⟩
  if extra_pos ≠ entry.extra_pos then
    .error (.differentSections from_addr)
  else
    let entry' :=
      if isPre then { entry with pre := entry.pre ++ [(symbol_address, loc)] }
      else { entry with post := entry.post ++ [(symbol_address, loc)] }
    .ok (m.insert from_addr entry')

/-- Embeds the `"softbranch" | "soft_branch"` arm of the `.hks` loop in
`run` (src/main.rs lines 538-593): the arena is picked from
`to_address < custom_text_address` (the resolved callback target), the entry
is keyed by `addr` (the hooked instruction), `opcode = "pre"` appends to the
`post` list and `opcode = "post"` to the `pre` list, and any other opcode
text fails. -/
def processSoftbranch (custom_text_address : Nat) (m : PrePostMap)
    (address to_address : Nat) (opcode_pos : List Char) (loc : HookLocation) :
    Except DispatchError PrePostMap :=
  let extra_pos : HookExtraPos :=
    if to_address < custom_text_address then .loader else .tail
  let entry := (m.lookup address).getD ⟨extra_pos, [], []⟩
  if extra_pos ≠ entry.extra_pos then
    .error (.differentSections address)
  else
    if opcode_pos = "pre".toList then
      .ok (m.insert address
        { entry with post := entry.post ++ [(to_address, loc)] })
    else if opcode_pos = "post".toList then
      .ok (m.insert address
        { entry with pre := entry.pre ++ [(to_address, loc)] })
    else
      .error (.invalidOpcodePosition opcode_pos)

/-! ## Hook tag parsing (src/hook/{util,meta,kind,info}.rs) -/

/-- Embeds `enum DecodeError` from `src/hook/symbol_safe.rs`. -/
inductive DecodeError where
  | invalidBase32
  | invalidUtf8
deriving DecidableEq, Repr

/-- Embeds `enum MetaParsingError` from `src/hook/error.rs`. -/
inductive MetaParsingError where
  | missingKind
  | missingArgument
  | missingFile
  | missingLine
  | missingCounter
  | invalidFile (e : DecodeError)
  | invalidLine (s : List Char)
  | invalidCounter (s : List Char)
deriving DecidableEq, Repr

/-- Embeds `enum ParsingError` from `src/hook/error.rs`. -/
inductive ParsingError where
  | invalidKind (s : List Char)
  | invalidAddress (s : List Char)
  | invalidBranch (s : List Char)
  | invalidCondition (s : List Char)
deriving DecidableEq, Repr

/-- ASCII lowercasing (`str::to_ascii_lowercase`). -/
def lowerAscii (l : List Char) : List Char :=
  l.map (fun c => if 'A' ≤ c ∧ c ≤ 'Z' then Char.ofNat (c.toNat + 32) else c)

/-- One decimal or hexadecimal digit value, as `u32::from_str_radix`
accepts it. -/
def digitValue (radix : Nat) (c : Char) : Option Nat :=
  if '0' ≤ c ∧ c ≤ '9' ∧ c.toNat - '0'.toNat < radix then
    some (c.toNat - '0'.toNat)
  else if radix = 16 ∧ 'a' ≤ c ∧ c ≤ 'f' then some (c.toNat - 'a'.toNat + 10)
  else if radix = 16 ∧ 'A' ≤ c ∧ c ≤ 'F' then some (c.toNat - 'A'.toNat + 10)
  else none

/-- Digit-accumulation loop of `u32::from_str_radix`: fails on a non-digit
and on overflow past `u32::MAX`. -/
def parseDigits (radix : Nat) : List Char → Nat → Option Nat
  | [], acc => some acc
  | c :: t, acc =>
    match digitValue radix c with
    | none => none
    | some d =>
      if acc * radix + d < 2 ^ 32 then parseDigits radix t (acc * radix + d)
      else none

/-- Embeds `u32::from_str_radix`: an optional leading `+`, then at least one
digit, no overflow. -/
def fromStrRadixU32 (radix : Nat) (s : List Char) : Option Nat :=
  let digits := match s with
    | '+' :: t => t
    | t => t
  if digits = [] then none else parseDigits radix digits 0

/-- Embeds `parse_address` from `src/hook/util.rs`. -/
def parse_address (s : List Char) : Except ParsingError Nat :=
  let r :=
    if ('0' :: 'x' :: []).isPrefixOf s ∨ ('0' :: 'X' :: []).isPrefixOf s then
      fromStrRadixU32 16 (s.drop 2)
    else
      fromStrRadixU32 10 s
  match r with
  | some v => .ok v
  | none => .error (.invalidAddress s)

/-- Embeds `ArmCondition::from_str` from `src/hook/arm.rs` (lines 27-54). -/
def ArmCondition.from_str (s : List Char) : Except ParsingError ArmCondition :=
  let l := lowerAscii s
  if l = "eq".toList then .ok .eq
  else if l = "ne".toList then .ok .ne
  else if l = "cs".toList then .ok .cs
  else if l = "hs".toList then .ok .cs
  else if l = "cc".toList then .ok .cc
  else if l = "lo".toList then .ok .cc
  else if l = "mi".toList then .ok .mi
  else if l = "pl".toList then .ok .pl
  else if l = "vs".toList then .ok .vs
  else if l = "vc".toList then .ok .vc
  else if l = "hi".toList then .ok .hi
  else if l = "ls".toList then .ok .ls
  else if l = "ge".toList then .ok .ge
  else if l = "lt".toList then .ok .lt
  else if l = "gt".toList then .ok .gt
  else if l = "le".toList then .ok .le
  else if l = "al".toList then .ok .al
  else if l = "nv".toList then .ok .nv
  else if l = [] then .ok .al
  else .error (.invalidCondition s)

/-- Embeds `ArmBranch::from_str` from `src/hook/arm.rs` (lines 80-105). -/
def ArmBranch.from_str (s : List Char) (from_addr_str : List Char) :
    Except ParsingError ArmBranch :=
  let l := s.length
  let t := lowerAscii s
  if (l = 1 ∨ l = 3) ∧ ('b' :: []).isPrefixOf t then do
    let condition ← ArmCondition.from_str (t.drop 1)
    let from_addr ← parse_address from_addr_str
    .ok ⟨condition, false, from_addr⟩
  else if (l = 2 ∨ l = 4) ∧ ('b' :: 'l' :: []).isPrefixOf t then do
    let condition ← ArmCondition.from_str (t.drop 2)
    let from_addr ← parse_address from_addr_str
    .ok ⟨condition, true, from_addr⟩
  else
    .error (.invalidBranch t)

/-- Embeds `enum HookKind` from `src/hook/kind.rs`. -/
inductive HookKind where
  | pre (addr : Nat)
  | post (addr : Nat)
  | branch (b : ArmBranch)
  | replace (addr : Nat)
  | symptr (addr : Nat)
deriving DecidableEq, Repr

/-- Embeds `HookKind::from_str` from `src/hook/kind.rs`. -/
def HookKind.from_str (kind_str arg_str : List Char) :
    Except ParsingError HookKind :=
  let kl := lowerAscii kind_str
  if kl = "pre".toList then do .ok (.pre (← parse_address arg_str))
  else if kl = "post".toList then do .ok (.post (← parse_address arg_str))
  else if kl = "replace".toList then do .ok (.replace (← parse_address arg_str))
  else if kl = "symptr".toList then do .ok (.symptr (← parse_address arg_str))
  else
    match ArmBranch.from_str kl arg_str with
    | .ok b => .ok (.branch b)
    | .error (.invalidBranch _) => .error (.invalidKind kind_str)
    | .error e => .error e

/-- Embeds `str::split('$')`: the list of `$`-separated fields (the empty
string yields one empty field). -/
def splitDollar : List Char → List (List Char)
  | [] => [[]]
  | c :: t =>
    if c = '$' then [] :: splitDollar t
    else
      match splitDollar t with
      | [] => [[c]]
      | f :: r => (c :: f) :: r

/-- Joins fields with `$`; the left inverse of `splitDollar`. -/
def joinDollar : List (List Char) → List Char
  | [] => []
  | [f] => f
  | f :: r => f ++ '$' :: joinDollar r

/-! ## Symbol-safe path codec (src/hook/symbol_safe.rs)

The codec delegates to the external `data_encoding` crate and to
`std::str::from_utf8`; both are modelled here from the specification
(§4.2: unpadded RFC 4648 base32 over the path's UTF-8 bytes). -/

/-- RFC 4648 base32 alphabet `A–Z 2–7`. -/
def base32Alphabet : List Char := "ABCDEFGHIJKLMNOPQRSTUVWXYZ234567".toList

/-- One byte as eight bits, most significant first. -/
def byteToBits (b : Nat) : List Bool :=
  [b.testBit 7, b.testBit 6, b.testBit 5, b.testBit 4,
   b.testBit 3, b.testBit 2, b.testBit 1, b.testBit 0]

/-- One base32 symbol value as five bits, most significant first. -/
def natToBits5 (v : Nat) : List Bool :=
  [v.testBit 4, v.testBit 3, v.testBit 2, v.testBit 1, v.testBit 0]

/-- Reads a most-significant-first bit string as a number. -/
def bitsToNat (l : List Bool) : Nat :=
  l.foldl (fun acc b => 2 * acc + (if b then 1 else 0)) 0

/-- Splits a bit string into 5-bit groups (any short remainder becomes a
final short group; encoding always passes a multiple of five). -/
def chunk5 : List Bool → List (List Bool)
  | a :: b :: c :: d :: e :: t => [a, b, c, d, e] :: chunk5 t
  | [] => []
  | l => [l]

/-- Splits a bit string into 8-bit groups, as `chunk5`. -/
def chunk8 : List Bool → List (List Bool)
  | a :: b :: c :: d :: e :: f :: g :: h :: t =>
    [a, b, c, d, e, f, g, h] :: chunk8 t
  | [] => []
  | l => [l]

/-- Zero-pads a bit string up to a multiple of five bits. -/
def padBits (bits : List Bool) : List Bool :=
  bits ++ List.replicate ((5 - bits.length % 5) % 5) false

/-- Modelled from the spec: `data_encoding::BASE32_NOPAD.encode` — regroup
the input bytes' bits into 5-bit symbols (zero-padding the last group) and
map them through the RFC 4648 alphabet. -/
def base32Encode (data : List Nat) : List Char :=
  (chunk5 (padBits ((data.map byteToBits).flatten))).map
    (fun g => base32Alphabet.getD (bitsToNat g) 'A')

/-- Value of one base32 symbol (position in the alphabet). -/
def decodeChar (c : Char) : Option Nat :=
  base32Alphabet.findIdx? (fun a => a = c)

/-- Values of all symbols; `none` as soon as one is outside the alphabet. -/
def decodeChars : List Char → Option (List Nat)
  | [] => some []
  | c :: t =>
    match decodeChar c, decodeChars t with
    | some v, some vs => some (v :: vs)
    | _, _ => none

/-- Modelled from the spec: `data_encoding::BASE32_NOPAD.decode` — reject a
symbol count that no byte string encodes to (`len mod 8 ∈ {1,3,6}`), reject
characters outside the alphabet, reject non-zero bits trailing the last
whole byte, and regroup the remaining bits into bytes. -/
def base32Decode (s : List Char) : Except DecodeError (List Nat) :=
  if s.length % 8 = 1 ∨ s.length % 8 = 3 ∨ s.length % 8 = 6 then
    .error .invalidBase32
  else
    match decodeChars s with
    | none => .error .invalidBase32
    | some vals =>
      let bits := (vals.map natToBits5).flatten
      let n := s.length * 5 / 8
      if (bits.drop (8 * n)).any id then .error .invalidBase32
      else .ok ((chunk8 (bits.take (8 * n))).map bitsToNat)

/-- Whether `s` is valid unpadded RFC 4648 base32: alphabet characters only,
a canonical length, and zero padding bits. -/
def validBase32 (s : List Char) : Bool :=
  match decodeChars s with
  | none => false
  | some vals =>
    !(decide (s.length % 8 = 1 ∨ s.length % 8 = 3 ∨ s.length % 8 = 6)) &&
    !(((vals.map natToBits5).flatten).drop (8 * (s.length * 5 / 8))).any id

/-- Whether `b` is a UTF-8 continuation byte. -/
def isCont (b : Nat) : Bool := 0x80 ≤ b && b ≤ 0xBF

/-- Modelled from the spec: the validity check of `std::str::from_utf8`
(RFC 3629 UTF-8: no overlong forms, no surrogates, nothing past U+10FFFF). -/
def utf8Valid : List Nat → Bool
  | [] => true
  | b :: t =>
    if b ≤ 0x7F then utf8Valid t
    else if 0xC2 ≤ b ∧ b ≤ 0xDF then
      match t with
      | c1 :: t' => isCont c1 && utf8Valid t'
      | [] => false
    else if b = 0xE0 then
      match t with
      | c1 :: c2 :: t' =>
        (0xA0 ≤ c1 && c1 ≤ 0xBF) && isCont c2 && utf8Valid t'
      | _ => false
    else if (0xE1 ≤ b ∧ b ≤ 0xEC) ∨ b = 0xEE ∨ b = 0xEF then
      match t with
      | c1 :: c2 :: t' => isCont c1 && isCont c2 && utf8Valid t'
      | _ => false
    else if b = 0xED then
      match t with
      | c1 :: c2 :: t' =>
        (0x80 ≤ c1 && c1 ≤ 0x9F) && isCont c2 && utf8Valid t'
      | _ => false
    else if b = 0xF0 then
      match t with
      | c1 :: c2 :: c3 :: t' =>
        (0x90 ≤ c1 && c1 ≤ 0xBF) && isCont c2 && isCont c3 && utf8Valid t'
      | _ => false
    else if 0xF1 ≤ b ∧ b ≤ 0xF3 then
      match t with
      | c1 :: c2 :: c3 :: t' =>
        isCont c1 && isCont c2 && isCont c3 && utf8Valid t'
      | _ => false
    else if b = 0xF4 then
      match t with
      | c1 :: c2 :: c3 :: t' =>
        (0x80 ≤ c1 && c1 ≤ 0x8F) && isCont c2 && isCont c3 && utf8Valid t'
      | _ => false
    else false

/-- Embeds `path_to_symbol_safe` from `src/hook/symbol_safe.rs`; the path is
modelled as its UTF-8 byte sequence. -/
def path_to_symbol_safe (p : List Nat) : List Char := base32Encode p

/-- Embeds `symbol_safe_to_path` from `src/hook/symbol_safe.rs`. -/
def symbol_safe_to_path (s : List Char) : Except DecodeError (List Nat) :=
  match base32Decode s with
  | .error e => .error e
  | .ok data => if utf8Valid data then .ok data else .error .invalidUtf8

/-! ## Hook metadata (src/hook/meta.rs, src/hook/info.rs) -/

/-- Embeds `struct HookMeta` from `src/hook/meta.rs`. -/
structure HookMeta where
  kind_str : List Char
  arg_str : List Char
  location : HookLocation
  counter : Nat
deriving DecidableEq, Repr

/-- Embeds `HookMeta::from_str` from `src/hook/meta.rs` (lines 13-41): five
`$`-separated fields fetched in order (`split.next()` leaves any further
fields unread), then the file, line and counter fields validated. -/
def HookMeta.from_str (s : List Char) : Except MetaParsingError HookMeta :=
  if s = [] then .error .missingKind
  else
    match splitDollar s with
    | [] => .error .missingKind
    | [_] => .error .missingArgument
    | [_, _] => .error .missingFile
    | [_, _, _] => .error .missingLine
    | [_, _, _, _] => .error .missingCounter
    | kind_str :: arg_str :: file_str :: line_str :: counter_str :: _ =>
      match symbol_safe_to_path file_str with
      | .error e => .error (.invalidFile e)
      | .ok file =>
        match fromStrRadixU32 10 line_str with
        | none => .error (.invalidLine line_str)
        | some line =>
          match fromStrRadixU32 10 counter_str with
          | none => .error (.invalidCounter counter_str)
          | some counter => .ok ⟨kind_str, arg_str, ⟨file, line⟩, counter⟩

/-- Embeds `enum Error` from `src/hook/error.rs`. -/
inductive HookError where
  | invalidPrefix
  | metaParsingError (e : MetaParsingError)
  | parsingError (e : ParsingError) (loc : HookLocation)
deriving DecidableEq, Repr

/-- Embeds `struct HookInfo` from `src/hook/info.rs`. -/
structure HookInfo where
  kind : HookKind
  location : HookLocation
  counter : Nat
deriving DecidableEq, Repr

/-- Embeds `HookInfo::from_str` from `src/hook/info.rs` (lines 17-28). -/
def HookInfo.from_str (s : List Char) : Except HookError HookInfo :=
  match HookMeta.from_str s with
  | .error e => .error (.metaParsingError e)
  | .ok meta =>
    match HookKind.from_str meta.kind_str meta.arg_str with
    | .error e => .error (.parsingError e meta.location)
    | .ok kind => .ok ⟨kind, meta.location, meta.counter⟩

/-! ## Hook declaration reader (src/hook/hks.rs) -/

/-- Embeds `str::trim_end`. -/
def trimEndChars (l : List Char) : List Char :=
  (l.reverse.dropWhile Char.isWhitespace).reverse

/-- Embeds `str::trim`. -/
def trimChars (l : List Char) : List Char :=
  trimEndChars (l.dropWhile Char.isWhitespace)

/-- Embeds `HksReader::line_strip_comment_and_truncate_end`: drop everything
from the first `#` on, then trim trailing whitespace. -/
def stripLine (l : List Char) : List Char :=
  trimEndChars (l.takeWhile (fun c => c ≠ '#'))

/-- Strips the optional trailing `:` of a title line. -/
def titleOf (l : List Char) : List Char :=
  if l.getLast? = some ':' then l.dropLast else l

/-- Key/value split of a property line: at the first `:`; the key is trimmed
and ASCII-lowercased, the value trimmed.  `none` when the line has no `:`. -/
def keyValueOfLine (l : List Char) : Option (List Char × List Char) :=
  if l.contains ':' then
    some (lowerAscii (trimChars (l.takeWhile (fun c => c ≠ ':'))),
          trimChars ((l.dropWhile (fun c => c ≠ ':')).tail))
  else none

/-- Embeds `enum HksError` from `src/hook/hks.rs`. -/
inductive HksError where
  | invalidTitleLine (line : Nat)
  | invalidKeyValueLine (line : Nat)
  | emptyKey (line : Nat)
  | emptyValue (line : Nat)
  | duplicateKey (line : Nat) (key : List Char)
deriving DecidableEq, Repr

/-- Embeds `HksError::line`. -/
def HksError.line : HksError → Nat
  | .invalidTitleLine l => l
  | .invalidKeyValueLine l => l
  | .emptyKey l => l
  | .emptyValue l => l
  | .duplicateKey l _ => l

/-- Embeds `struct HksEntry`; the `HashMap` is modelled as an association
list in insertion order. -/
structure HksEntry where
  title : List Char
  line : Nat
  kv : List (List Char × List Char)
deriving DecidableEq, Repr

/-- Membership test of the entry's key/value map. -/
def kvHasKey (kv : List (List Char × List Char)) (k : List Char) : Bool :=
  kv.any (fun p => p.1 = k)

/-- Embeds the `HksReader` iterator of `src/hook/hks.rs` (lines 130-217),
defunctionalized over the numbered input lines.  The state carries the open
entry (title, its line number, its properties so far), exactly the data the
iterator holds in `next_title` and the local `kv`; the first error aborts,
as the consumer in `run` does. -/
def readHksAux : List (Nat × List Char) →
    Option (List Char × Nat × List (List Char × List Char)) →
    List HksEntry → Except HksError (List HksEntry)
  | [], none, acc => .ok acc.reverse
  | [], some (t, ti, kv), acc => .ok (HksEntry.mk t ti kv :: acc).reverse
  | (i, raw) :: rest, st, acc =>
    let l := stripLine raw
    if hl : l = [] then readHksAux rest st acc
    else
      if (l.head hl).isWhitespace then
        match st with
        | none => .error (.invalidTitleLine i)
        | some (t, ti, kv) =>
          match keyValueOfLine l with
          | none => .error (.invalidKeyValueLine i)
          | some (key, value) =>
            if key = [] then .error (.emptyKey i)
            else if value = [] then .error (.emptyValue i)
            else if kvHasKey kv key then .error (.duplicateKey i key)
            else readHksAux rest (some (t, ti, kv ++ [(key, value)])) acc
      else
        match st with
        | none => readHksAux rest (some (titleOf l, i, [])) acc
        | some (t, ti, kv) =>
          readHksAux rest (some (titleOf l, i, [])) (HksEntry.mk t ti kv :: acc)

/-- Numbers a list of lines starting at `n`. -/
def numberFrom {α : Type} : Nat → List α → List (Nat × α)
  | _, [] => []
  | n, x :: t => (n, x) :: numberFrom (n + 1) t

/-- Reads a whole `.hks` input, lines numbered from 1 (the reader increments
`line_i` before examining each fetched line, so the first line is line 1). -/
def readHks (lines : List (List Char)) : Except HksError (List HksEntry) :=
  readHksAux (numberFrom 1 lines) none []

/-! ## Helper lemmas -/

/-- Bitwise or of numbers with disjoint bit ranges is addition. -/
theorem lor_eq_add_of_mod_eq_zero {n a b : Nat} (ha : a % 2 ^ n = 0)
    (hb : b < 2 ^ n) : a ||| b = a + b := by
  apply Nat.eq_of_testBit_eq
  intro i
  rw [Nat.testBit_lor]
  rcases Nat.lt_or_ge i n with hi | hi
  · have hab : (a + b) % 2 ^ n = b := by
      rw [Nat.add_mod, ha, Nat.zero_add, Nat.mod_mod_of_dvd _ dvd_rfl,
        Nat.mod_eq_of_lt hb]
    have h1 : a.testBit i = false := by
      have h := Nat.testBit_mod_two_pow a n i
      rw [ha, Nat.zero_testBit] at h
      simpa [hi] using h.symm
    have h2 : (a + b).testBit i = b.testBit i := by
      have h := Nat.testBit_mod_two_pow (a + b) n i
      rw [hab] at h
      simpa [hi] using h.symm
    rw [h1, h2, Bool.false_or]
  · have h1 : b.testBit i = false :=
      Nat.testBit_lt_two_pow
        (lt_of_lt_of_le hb (Nat.pow_le_pow_right (by norm_num) hi))
    obtain ⟨k, hk⟩ := Nat.dvd_of_mod_eq_zero ha
    have h2 : (a + b).testBit i = a.testBit i := by
      have hdiv : (a + b) / 2 ^ i = a / 2 ^ i := by
        have e1 : (2 : Nat) ^ i = 2 ^ n * 2 ^ (i - n) := by
          rw [← pow_add]
          congr 1
          omega
        rw [e1, ← Nat.div_div_eq_div_mul, ← Nat.div_div_eq_div_mul, hk]
        congr 1
        rw [Nat.mul_add_div (by positivity), Nat.div_eq_of_lt hb,
          Nat.add_zero, Nat.mul_div_cancel_left _ (by positivity)]
      rw [Nat.testBit_to_div_mod, Nat.testBit_to_div_mod, hdiv]
    rw [h1, h2, Bool.or_false]

/-- The discriminant of every condition is below 16. -/
theorem ArmCondition.val_lt (c : ArmCondition) : c.val < 16 := by
  cases c <;> decide

/-- The composed branch word, arithmetically. -/
theorem branch_word_eq (v l m : Nat) (hl : l ≤ 1)
    (hm : m < 2 ^ 24) :
    (5 <<< 25) ||| (v <<< 28) ||| (l <<< 24) ||| m =
      (v * 16 + 10 + l) * 2 ^ 24 + m := by
  rw [Nat.shiftLeft_eq, Nat.shiftLeft_eq, Nat.shiftLeft_eq,
    Nat.lor_comm (5 * 2 ^ 25) (v * 2 ^ 28), Nat.lor_assoc, Nat.lor_assoc]
  have h1 : (l * 2 ^ 24) ||| m = l * 2 ^ 24 + m :=
    lor_eq_add_of_mod_eq_zero (n := 24) (by rw [Nat.mul_mod_left]) hm
  rw [h1]
  have h2 : (5 * 2 ^ 25) ||| (l * 2 ^ 24 + m) = 5 * 2 ^ 25 + (l * 2 ^ 24 + m) :=
    lor_eq_add_of_mod_eq_zero (n := 25) (by rw [Nat.mul_mod_left]) (by omega)
  rw [h2]
  have h3 : (v * 2 ^ 28) ||| (5 * 2 ^ 25 + (l * 2 ^ 24 + m)) =
      v * 2 ^ 28 + (5 * 2 ^ 25 + (l * 2 ^ 24 + m)) :=
    lor_eq_add_of_mod_eq_zero (n := 28) (by rw [Nat.mul_mod_left]) (by omega)
  rw [h3]
  ring

/-- Arithmetic characterization of `ArmBranch.to_u32`. -/
theorem to_u32_eq_arith (b : ArmBranch) (to_addr : Nat) :
    b.to_u32 to_addr =
      if instrOffset b.from_addr to_addr < -0x1000000 ∨
          instrOffset b.from_addr to_addr > 0xFFFFFF then none
      else
        some ((b.condition.val * 16 + 10 + (if b.link then 1 else 0)) * 2 ^ 24 +
          (instrOffset b.from_addr to_addr % 0x1000000).toNat) := by
  unfold ArmBranch.to_u32 instrOffset
  dsimp only
  split
  · rfl
  · congr 1
    apply branch_word_eq
    · split <;> omega
    · have h1 : 0 ≤ ((to_addr : Int) / 4 - (b.from_addr : Int) / 4 - 2) %
          0x1000000 := Int.emod_nonneg _ (by norm_num)
      have h2 : ((to_addr : Int) / 4 - (b.from_addr : Int) / 4 - 2) %
          0x1000000 < 0x1000000 := Int.emod_lt_of_pos _ (by norm_num)
      omega

/-! ## C1 — branch relocation -/

/-- C1: the claim requires `relocate` to return a destination-preserving word
or to fail exactly when the recomputed signed 24-bit offset is out of range;
the code instead reads the old 24-bit offset unsigned (no sign extension),
so relocating the self-branch `0xEAFFFFFE` (destination `0x2000`) from
`0x2000` down to `0x1000` returns `none` although the recomputed signed
offset, 1022, is comfortably representable.  Non-branch words do come back
unchanged. -/
theorem relocate_u32_misses_backward_branch :
    relocate_u32 0xEAFFFFFE 0x2000 0x1000 = none ∧
    branchDestination 0xEAFFFFFE 0x2000 = 0x2000 ∧
    instrOffset 0x1000 0x2000 = 1022 ∧
    -(2 ^ 23) ≤ (1022 : Int) ∧ (1022 : Int) ≤ 2 ^ 23 - 1 ∧
    relocate_u32 0x12345678 0x2000 0x1000 = some 0x12345678 := by
  refine ⟨by decide, by decide, by decide, by decide, by decide, by decide⟩

/-! ## C5 — branch encoding -/

/-- C5 counterexample: the claim's literal example
`make_branch(true, 0x1000, 0x0, AL) = 0xEBFFFFFE` is wrong — the code
returns `0xEBFFFBFE` (offset −1026, not −2) — and its unconditional
decode-equality fails for an accepted offset of `2^23`: the word
`0xEA800000` returned for `make_branch(false, 0x0, 0x2000008, AL)`
sign-extends to destination `8 − 2^25`, not `0x2000008`. -/
theorem make_branch_u32_counterexample :
    make_branch_u32 true 0x1000 0x0 .al = some 0xEBFFFBFE ∧
    (0xEBFFFBFE : Nat) ≠ 0xEBFFFFFE ∧
    make_branch_u32 false 0x0 0x2000008 .al = some 0xEA800000 ∧
    branchDestination 0xEA800000 0x0 ≠ (0x2000008 : Int) := by
  refine ⟨by decide, by decide, by decide, by decide⟩

/-- C5 (amended): for word-aligned `from` and `to`, `make_branch` returns
`none` exactly when the instruction offset `(to/4) − (from/4) − 2` lies
outside `[−2^24, 2^24−1]`; a returned word carries the offset modulo `2^24`
in its low 24 bits, has bits 27..25 = 101, bit 24 = link and the condition
code in bits 31..28, and whenever the offset also lies in the representable
band `[−2^23, 2^23−1]` the decoded destination (sign-extend the low 24 bits,
multiply by 4, add `from+8`) equals `to`. -/
theorem make_branch_u32_spec (link : Bool) (from_addr to_addr : Nat)
    (cond : ArmCondition)
    (h4f : from_addr % 4 = 0) (h4t : to_addr % 4 = 0) :
    (make_branch_u32 link from_addr to_addr cond = none ↔
      instrOffset from_addr to_addr < -(2 ^ 24) ∨
      2 ^ 24 - 1 < instrOffset from_addr to_addr) ∧
    ∀ w, make_branch_u32 link from_addr to_addr cond = some w →
      w % 2 ^ 24 = (instrOffset from_addr to_addr % 2 ^ 24).toNat ∧
      w / 2 ^ 25 % 8 = 5 ∧
      w / 2 ^ 24 % 2 = (if link then 1 else 0) ∧
      w / 2 ^ 28 = cond.val ∧
      (-(2 ^ 23) ≤ instrOffset from_addr to_addr →
        instrOffset from_addr to_addr ≤ 2 ^ 23 - 1 →
        branchDestination w from_addr = (to_addr : Int)) := by
  have harith := to_u32_eq_arith ⟨cond, link, from_addr⟩ to_addr
  have hvlt := cond.val_lt
  unfold make_branch_u32
  rw [harith]
  dsimp only
  set o := instrOffset from_addr to_addr with ho
  have ho' : o = (to_addr : Int) / 4 - (from_addr : Int) / 4 - 2 := by
    rw [ho]; rfl
  have hom0 : 0 ≤ o % 0x1000000 := Int.emod_nonneg _ (by norm_num)
  have hom1 : o % 0x1000000 < 0x1000000 := Int.emod_lt_of_pos _ (by norm_num)
  constructor
  · constructor
    · intro h
      by_cases hc : o < -0x1000000 ∨ o > 0xFFFFFF
      · omega
      · rw [if_neg hc] at h
        exact absurd h (by simp)
    · intro h
      rw [if_pos (by omega)]
  · intro w hw
    have hc : ¬(o < -0x1000000 ∨ o > 0xFFFFFF) := by
      intro hc
      rw [if_pos hc] at hw
      exact Option.noConfusion hw
    rw [if_neg hc] at hw
    have hw' : w = (cond.val * 16 + 10 + (if link then 1 else 0)) * 2 ^ 24 +
        (o % 0x1000000).toNat := (Option.some.inj hw).symm
    have hl : (if link then 1 else 0 : Nat) ≤ 1 := by split <;> omega
    refine ⟨by omega, by omega, by omega, by omega, ?_⟩
    intro hb1 hb2
    have hwmod : w % 0x1000000 = (o % 0x1000000).toNat := by omega
    unfold branchDestination signExtend24
    rw [hwmod]
    split <;> omega

/-- C5 witness: the amended theorem at the spec's first literal example. -/
theorem make_branch_u32_spec_witness :
    (0x1000 : Nat) % 4 = 0 ∧ (0x1008 : Nat) % 4 = 0 ∧
    make_branch_u32 false 0x1000 0x1008 .al = some 0xEA000000 ∧
    branchDestination 0xEA000000 0x1000 = (0x1008 : Int) := by
  refine ⟨by decide, by decide, by decide, ?_⟩
  have h := make_branch_u32_spec false 0x1000 0x1008 .al (by decide) (by decide)
  exact (h.2 0xEA000000 (by decide)).2.2.2.2 (by decide) (by decide)

/-! ## Writer lemmas -/

/-- In a pairwise-related list, every element is the last one or relates to
it. -/
theorem pairwise_rel_getLast {α : Type} {R : α → α → Prop} :
    ∀ {l : List α}, l.Pairwise R → ∀ {x m : α}, x ∈ l →
      l.getLast? = some m → x = m ∨ R x m := by
  intro l
  induction l with
  | nil => intro _ x m hx; simp at hx
  | cons a t ih =>
    intro hp x m hx hm
    cases t with
    | nil =>
      simp only [List.getLast?_singleton, Option.some.injEq] at hm
      simp only [List.mem_singleton] at hx
      left
      rw [hx, hm]
    | cons b t' =>
      rw [List.getLast?_cons_cons] at hm
      rcases List.mem_cons.1 hx with hxa | hxt
      · subst hxa
        right
        have hm' : m ∈ b :: t' := List.mem_of_mem_getLast? (Option.mem_def.mpr hm)
        exact (List.pairwise_cons.1 hp).1 m hm'
      · exact ih (List.pairwise_cons.1 hp).2 hxt hm

/-- The single-entry duplicate probe finds a duplicate exactly when some
ledger entry overlaps the probed interval (refinement of the naive search,
valid under the ledger invariant). -/
theorem find_duplicate_write_iff (w : HookWriter) (a l : Nat)
    (h : LedgerInv w.write_reasons) :
    (w.find_duplicate_write a l).isSome = true ↔
      ∃ e ∈ w.write_reasons, intervalsOverlap e.1 e.2.1 a l := by
  unfold HookWriter.find_duplicate_write
  constructor
  · intro hs
    cases hL : (w.write_reasons.filter (fun e => e.1 < a + l)).getLast? with
    | none => rw [hL] at hs; simp at hs
    | some m =>
      rw [hL] at hs
      dsimp only at hs
      by_cases hgt : m.2.1 + m.1 > a
      · have hmem := List.mem_filter.1
          (List.mem_of_mem_getLast? (Option.mem_def.mpr hL))
        have hlt : m.1 < a + l := by simpa using hmem.2
        exact ⟨m, hmem.1, hlt, by omega⟩
      · rw [if_neg hgt] at hs; simp at hs
  · rintro ⟨e, he, he1, he2⟩
    have heF : e ∈ w.write_reasons.filter (fun e => e.1 < a + l) :=
      List.mem_filter.2 ⟨he, by simpa using he1⟩
    cases hL : (w.write_reasons.filter (fun e => e.1 < a + l)).getLast? with
    | none =>
      rw [List.getLast?_eq_none_iff] at hL
      rw [hL] at heF
      simp at heF
    | some m =>
      have hPf : (w.write_reasons.filter (fun e => e.1 < a + l)).Pairwise
          (fun x y => x.1 + x.2.1 ≤ y.1 ∧ x.1 < y.1) := h.filter _
      rcases pairwise_rel_getLast hPf heF hL with rfl | hRem
      · dsimp only; rw [if_pos (by omega)]; rfl
      · dsimp only; rw [if_pos (by omega)]; rfl

/-- Members of `ledgerInsert` are old members or the inserted entry. -/
theorem mem_ledgerInsert {led : List (Nat × Nat × HookWriteReason)}
    {a s : Nat} {r : HookWriteReason} {x : Nat × Nat × HookWriteReason}
    (hx : x ∈ ledgerInsert led a s r) : x ∈ led ∨ x = (a, s, r) := by
  induction led with
  | nil =>
    unfold ledgerInsert at hx
    right
    simpa using hx
  | cons e t ih =>
    unfold ledgerInsert at hx
    split at hx
    · rcases List.mem_cons.1 hx with rfl | hx'
      · right; rfl
      · left; exact hx'
    · split at hx
      · rcases List.mem_cons.1 hx with rfl | hx'
        · right; rfl
        · left; exact List.mem_cons_of_mem e hx'
      · rcases List.mem_cons.1 hx with rfl | hx'
        · left; exact List.mem_cons_self x t
        · rcases ih hx' with h1 | h2
          · left; exact List.mem_cons_of_mem e h1
          · right; exact h2

/-- The inserted entry is in the new ledger. -/
theorem self_mem_ledgerInsert (led : List (Nat × Nat × HookWriteReason))
    (a s : Nat) (r : HookWriteReason) : (a, s, r) ∈ ledgerInsert led a s r := by
  induction led with
  | nil => unfold ledgerInsert; exact List.mem_singleton.2 rfl
  | cons e t ih =>
    unfold ledgerInsert
    split
    · exact List.mem_cons_self _ _
    · split
      · exact List.mem_cons_self _ _
      · exact List.mem_cons_of_mem e ih

/-- Recording a non-colliding interval preserves the ledger invariant. -/
theorem ledgerInsert_inv {led : List (Nat × Nat × HookWriteReason)}
    {a s : Nat} {r : HookWriteReason} (h : LedgerInv led)
    (hno : ∀ e ∈ led, e.1 < a + s → e.1 + e.2.1 ≤ a) :
    LedgerInv (ledgerInsert led a s r) := by
  induction led with
  | nil =>
    unfold ledgerInsert LedgerInv
    simp
  | cons e t ih =>
    unfold LedgerInv at h ⊢
    rw [List.pairwise_cons] at h
    unfold ledgerInsert
    split
    · rw [List.pairwise_cons]
      refine ⟨?_, List.pairwise_cons.2 h⟩
      intro x hx
      dsimp only
      have hx1 : e.1 ≤ x.1 := by
        rcases List.mem_cons.1 hx with rfl | hxt
        · omega
        · have := h.1 x hxt
          omega
      constructor
      · by_contra hc
        have := hno x hx (by omega)
        omega
      · omega
    · split
      · rw [List.pairwise_cons]
        refine ⟨?_, h.2⟩
        intro x hxt
        dsimp only
        have hex := h.1 x hxt
        constructor
        · by_contra hc
          have := hno x (List.mem_cons_of_mem e hxt) (by omega)
          omega
        · omega
      · rename_i h1 h2
        have hae : e.1 < a := by omega
        rw [List.pairwise_cons]
        constructor
        · intro x hx
          rcases mem_ledgerInsert hx with hxt | rfl
          · exact h.1 x hxt
          · exact ⟨hno e (List.mem_cons_self e t) (by omega : e.1 < a + s), hae⟩
        · exact ih h.2 (fun x hx hlt => hno x (List.mem_cons_of_mem e hx) hlt)

/-- A successful `write` produces exactly the updated buffer and ledger and
leaves the other fields alone. -/
theorem write_ok_shape {w w' : HookWriter} {a : Nat} {d : List Nat}
    (hok : w.write a d = .ok w') :
    w' = { w with
      buffer := spliceBytes w.buffer (a - w.base_address) d,
      write_reasons := ledgerInsert w.write_reasons a d.length .misc } := by
  unfold HookWriter.write at hok
  split at hok
  · exact absurd hok (by simp)
  · dsimp only at hok
    split at hok
    · exact absurd hok (by simp)
    · split at hok
      · exact absurd hok (by simp)
      · exact (Except.ok.inj hok).symm

/-- A successful `write` passed the duplicate probe (when checking is on). -/
theorem write_ok_no_overlap {w w' : HookWriter} {a : Nat} {d : List Nat}
    (hflag : w.duplicate_write_check = true) (hinv : LedgerInv w.write_reasons)
    (hok : w.write a d = .ok w') :
    ¬ ∃ e ∈ w.write_reasons, intervalsOverlap e.1 e.2.1 a d.length := by
  unfold HookWriter.write at hok
  split at hok
  · exact absurd hok (by simp)
  · dsimp only at hok
    split at hok
    · exact absurd hok (by simp)
    · split at hok
      · exact absurd hok (by simp)
      · rename_i hnd
        intro hex
        exact hnd ⟨hflag, (find_duplicate_write_iff w a d.length hinv).2 hex⟩

/-- A successful duplicate-checked `write` preserves the ledger invariant. -/
theorem write_ok_ledgerInv {w w' : HookWriter} {a : Nat} {d : List Nat}
    (hflag : w.duplicate_write_check = true) (hinv : LedgerInv w.write_reasons)
    (hok : w.write a d = .ok w') : LedgerInv w'.write_reasons := by
  have hnov := write_ok_no_overlap hflag hinv hok
  rw [write_ok_shape hok]
  apply ledgerInsert_inv hinv
  intro e he hlt
  by_contra hc
  exact hnov ⟨e, he, hlt, by omega⟩

/-- A successful `resize_until` only changes the buffer. -/
theorem resize_ok_shape {w w' : HookWriter} {a : Nat}
    (hok : w.resize_until a = .ok w') :
    w' = { w with buffer := resizeList w.buffer (a - w.base_address) } := by
  unfold HookWriter.resize_until at hok
  split at hok
  · exact absurd hok (by simp)
  · exact (Except.ok.inj hok).symm

/-- Every reachable writer has duplicate checking on and a well-formed
ledger. -/
theorem reachable_inv {w : HookWriter} (h : Reachable w) :
    w.duplicate_write_check = true ∧ LedgerInv w.write_reasons := by
  induction h with
  | new base buf => exact ⟨rfl, List.Pairwise.nil⟩
  | write hre hok ih =>
    refine ⟨?_, write_ok_ledgerInv ih.1 ih.2 hok⟩
    rw [write_ok_shape hok]
    exact ih.1
  | write_end hre hok ih =>
    rename_i w w' d
    unfold HookWriter.write_end at hok
    rw [← Except.ok.inj hok]
    exact ih
  | resize hre hok ih =>
    rw [resize_ok_shape hok]
    exact ih
  | set_loader hre ih => exact ih

/-! ## C3 — write bounds, duplicate detection, success effect -/

/-- C3: on any reachable writer with duplicate checking on, `write` fails
`OutOfBoundsWrite(addr, len)` exactly when the write leaves
`[base_address, end_address)`; otherwise it fails `DuplicateWrite(addr, len)`
exactly when some previously recorded interval overlaps `[addr, addr+len)`;
otherwise it succeeds, splicing the bytes in at `addr − base` and recording
`[addr, addr+len)` with reason `Misc`.  (Errors are returned before any
mutation, so an erroring `write` leaves the writer unchanged.) -/
theorem hook_writer_write_spec (w : HookWriter) (address : Nat)
    (data : List Nat) (hreach : Reachable w)
    (hdup : w.duplicate_write_check = true) :
    (w.write address data = .error (.outOfBoundsWrite address data.length) ↔
      address < w.base_address ∨ address + data.length > w.end_address) ∧
    (w.write address data = .error (.duplicateWrite address data.length) ↔
      w.base_address ≤ address ∧ address + data.length ≤ w.end_address ∧
      ∃ e ∈ w.write_reasons, intervalsOverlap e.1 e.2.1 address data.length) ∧
    (w.base_address ≤ address → address + data.length ≤ w.end_address →
      (¬ ∃ e ∈ w.write_reasons,
          intervalsOverlap e.1 e.2.1 address data.length) →
      w.write address data = .ok { w with
        buffer := spliceBytes w.buffer (address - w.base_address) data,
        write_reasons :=
          ledgerInsert w.write_reasons address data.length .misc }) := by
  have hinv := (reachable_inv hreach).2
  have hfd := find_duplicate_write_iff w address data.length hinv
  unfold HookWriter.write HookWriter.end_address
  dsimp only
  split_ifs with h1 h2 h3
  · refine ⟨⟨fun _ => Or.inl h1, fun _ => rfl⟩, ?_, ?_⟩
    · constructor
      · intro h; exact absurd h (by simp)
      · rintro ⟨hb, _, _⟩; omega
    · intro hb _ _; omega
  · refine ⟨⟨fun _ => Or.inr (by omega), fun _ => rfl⟩, ?_, ?_⟩
    · constructor
      · intro h; exact absurd h (by simp)
      · rintro ⟨_, hb2, _⟩; omega
    · intro _ hb2 _; omega
  · have hov := hfd.1 h3.2
    refine ⟨?_, ⟨fun _ => ⟨by omega, by omega, hov⟩, fun _ => rfl⟩, ?_⟩
    · constructor
      · intro h; exact absurd h (by simp)
      · intro hor; omega
    · intro _ _ hno; exact absurd hov hno
  · refine ⟨?_, ?_, fun _ _ _ => rfl⟩
    · constructor
      · intro h; exact absurd h (by simp)
      · intro hor; omega
    · constructor
      · intro h; exact absurd h (by simp)
      · rintro ⟨_, _, hov⟩
        exact absurd ⟨hdup, hfd.2 hov⟩ h3

/-- C3 witness: a fresh writer, the out-of-bounds clause at a concrete
probe. -/
theorem hook_writer_write_spec_witness :
    (HookWriter.new 0x1000 [0, 0, 0, 0]).duplicate_write_check = true ∧
    ((HookWriter.new 0x1000 [0, 0, 0, 0]).write 0x1001 [7, 7] =
        .error (.outOfBoundsWrite 0x1001 [7, 7].length) ↔
      0x1001 < (HookWriter.new 0x1000 [0, 0, 0, 0]).base_address ∨
      0x1001 + [7, 7].length >
        (HookWriter.new 0x1000 [0, 0, 0, 0]).end_address) :=
  ⟨by decide,
    (hook_writer_write_spec (HookWriter.new 0x1000 [0, 0, 0, 0]) 0x1001 [7, 7]
      (Reachable.new 0x1000 [0, 0, 0, 0]) (by decide)).1⟩

/-! ## C4 — ledger invariant and single-probe refinement -/

/-- C4: a successful duplicate-checked `write` preserves the non-overlap
ledger invariant, and under that invariant the single-entry probe (last
ledger entry starting below `addr+len`, duplicate iff its end exceeds
`addr`) agrees with the naive search over every ledger entry. -/
theorem ledger_invariant_and_probe_refinement :
    (∀ (w w' : HookWriter) (a : Nat) (d : List Nat),
      w.duplicate_write_check = true → LedgerInv w.write_reasons →
      w.write a d = .ok w' → LedgerInv w'.write_reasons) ∧
    (∀ (w : HookWriter) (a l : Nat), LedgerInv w.write_reasons →
      ((w.find_duplicate_write a l).isSome = true ↔
        ∃ e ∈ w.write_reasons, intervalsOverlap e.1 e.2.1 a l)) :=
  ⟨fun _ _ _ _ hflag hinv hok => write_ok_ledgerInv hflag hinv hok,
   fun w a l hinv => find_duplicate_write_iff w a l hinv⟩

/-- C4 witness: both parts at a concrete writer whose ledger holds
`[0x1001, 0x1003)`. -/
theorem ledger_invariant_and_probe_refinement_witness :
    LedgerInv (HookWriter.mk 0x1000 none [0, 7, 7, 0] true
        [(0x1001, 2, .misc)]).write_reasons ∧
    LedgerInv (HookWriter.mk 0x1000 none [0, 7, 7, 9] true
        [(0x1001, 2, .misc), (0x1003, 1, .misc)]).write_reasons ∧
    (((HookWriter.mk 0x1000 none [0, 7, 7, 0] true
        [(0x1001, 2, .misc)]).find_duplicate_write 0x1002 1).isSome = true ↔
      ∃ e ∈ (HookWriter.mk 0x1000 none [0, 7, 7, 0] true
        [(0x1001, 2, .misc)]).write_reasons,
        intervalsOverlap e.1 e.2.1 0x1002 1) :=
  ⟨by decide,
   ledger_invariant_and_probe_refinement.1
      (HookWriter.mk 0x1000 none [0, 7, 7, 0] true [(0x1001, 2, .misc)])
      (HookWriter.mk 0x1000 none [0, 7, 7, 9] true
        [(0x1001, 2, .misc), (0x1003, 1, .misc)])
      0x1003 [9] (by decide) (by decide) (by decide),
   ledger_invariant_and_probe_refinement.2
      (HookWriter.mk 0x1000 none [0, 7, 7, 0] true [(0x1001, 2, .misc)])
      0x1002 1 (by decide)⟩

/-! ## C9 — resize never clears the ledger -/

/-- C9: truncating and re-growing the image leaves the duplicate ledger
intact, so a later in-bounds write that overlaps a previously written
interval still fails `DuplicateWrite` even though the original bytes are
gone. -/
theorem resize_keeps_duplicate_ledger (w w1 w2 w3 : HookWriter)
    (a : Nat) (bytes : List Nat) (b c a' : Nat) (data' : List Nat)
    (hreach : Reachable w) (hdup : w.duplicate_write_check = true)
    (h1 : w.write a bytes = .ok w1)
    (h2 : w1.resize_until b = .ok w2) (hb : b ≤ a)
    (h3 : w2.resize_until c = .ok w3) (hc : a + bytes.length ≤ c)
    (hlo : w3.base_address ≤ a') (hhi : a' + data'.length ≤ w3.end_address)
    (hov : intervalsOverlap a bytes.length a' data'.length) :
    w3.write a' data' = .error (.duplicateWrite a' data'.length) := by
  have hr3 : Reachable w3 :=
    .resize (.resize (.write hreach h1) h2) h3
  have hinv3 := (reachable_inv hr3).2
  have hflag3 := (reachable_inv hr3).1
  have hmem : (a, bytes.length, HookWriteReason.misc) ∈ w3.write_reasons := by
    rw [resize_ok_shape h3]
    show (a, bytes.length, HookWriteReason.misc) ∈ w2.write_reasons
    rw [resize_ok_shape h2]
    show (a, bytes.length, HookWriteReason.misc) ∈ w1.write_reasons
    rw [write_ok_shape h1]
    exact self_mem_ledgerInsert _ _ _ _
  have hsome : (w3.find_duplicate_write a' data'.length).isSome = true :=
    (find_duplicate_write_iff w3 a' data'.length hinv3).2
      ⟨(a, bytes.length, .misc), hmem, hov⟩
  unfold HookWriter.end_address at hhi
  unfold HookWriter.write
  dsimp only
  rw [if_neg (by omega), if_neg (by omega :
      ¬(a' - w3.base_address + data'.length > w3.buffer.length)),
    if_pos ⟨hflag3, hsome⟩]

/-- C9 witness: write `[0x1001, 0x1003)`, truncate to `0x1001`, regrow to
`0x1006`, then an overlapping write at `0x1002` still collides. -/
theorem resize_keeps_duplicate_ledger_witness :
    (HookWriter.mk 0x1000 none [0, 0, 0, 0, 0, 0] true
      [(0x1001, 2, .misc)]).write 0x1002 [5] =
      .error (.duplicateWrite 0x1002 1) :=
  resize_keeps_duplicate_ledger
    (HookWriter.new 0x1000 [0, 0, 0, 0])
    (HookWriter.mk 0x1000 none [0, 7, 7, 0] true [(0x1001, 2, .misc)])
    (HookWriter.mk 0x1000 none [0] true [(0x1001, 2, .misc)])
    (HookWriter.mk 0x1000 none [0, 0, 0, 0, 0, 0] true [(0x1001, 2, .misc)])
    0x1001 [7, 7] 0x1001 0x1006 0x1002 [5]
    (Reachable.new 0x1000 [0, 0, 0, 0]) (by decide)
    (by decide) (by decide) (by decide) (by decide) (by decide)
    (by decide) (by decide) (by decide)

/-! ## C2 — pre/post arena selection -/

/-- Looking up the freshly inserted key returns the inserted entry. -/
theorem PrePostMap.lookup_insert (m : PrePostMap) (k : Nat)
    (v : PrePostEntry) : (m.insert k v).lookup k = some v := by
  induction m with
  | nil =>
    unfold PrePostMap.insert PrePostMap.lookup
    rw [List.find?_cons_of_pos _ (by simp)]
  | cons p t ih =>
    unfold PrePostMap.insert
    split
    · unfold PrePostMap.lookup
      rw [List.find?_cons_of_pos _ (by simp)]
    · rename_i hne
      unfold PrePostMap.lookup at ih ⊢
      rw [List.find?_cons_of_neg _ (by simpa using hne)]
      exact ih

/-- C2 counterexample: a `.hks` softbranch at hooked address `0x100000`
(below `custom_text_address = 0x500000`) whose callback target `0x600000`
lies above it gets arena `Tail`, not `Loader` — the arena is chosen from the
callback target, not from `from_addr` as the claim states. -/
theorem softbranch_arena_counterexample :
    processSoftbranch 0x500000 [] 0x100000 0x600000 "pre".toList ⟨[], 1⟩ =
      .ok [(0x100000, ⟨.tail, [], [(0x600000, ⟨[], 1⟩)]⟩)] ∧
    (0x100000 : Nat) < 0x500000 ∧
    PrePostMap.lookup [(0x100000, ⟨.tail, [], [(0x600000, ⟨[], 1⟩)]⟩)]
        0x100000 = some ⟨.tail, [], [(0x600000, ⟨[], 1⟩)]⟩ ∧
    HookExtraPos.tail ≠ HookExtraPos.loader := by
  refine ⟨by decide, by decide, by decide, by decide⟩

/-- C2 (amended): symbol `Pre`/`Post` hooks choose the arena from the hooked
address — `Loader` iff `from_addr < custom_text_address` — while `.hks`
softbranch declarations choose it from the resolved callback target —
`Loader` iff `to_address < custom_text_address`.  In both paths a hook whose
computed arena differs from the arena already stored for the same hooked
address fails with the "Pre/post hooks … are in different sections" error,
and after a successful dispatch the stored entry carries the computed
arena. -/
theorem pre_post_arena_spec (custom_text_address : Nat) (m : PrePostMap)
    (isPre : Bool) (from_addr symbol_address : Nat)
    (address to_address : Nat) (opcode : List Char) (loc : HookLocation) :
    (∀ e, m.lookup from_addr = some e →
      e.extra_pos ≠
        (if from_addr < custom_text_address then HookExtraPos.loader
          else .tail) →
      processSymbolPrePost custom_text_address m isPre from_addr
        symbol_address loc = .error (.differentSections from_addr)) ∧
    (∀ m', processSymbolPrePost custom_text_address m isPre from_addr
        symbol_address loc = .ok m' →
      ∃ e', m'.lookup from_addr = some e' ∧
        e'.extra_pos =
          (if from_addr < custom_text_address then HookExtraPos.loader
            else .tail)) ∧
    (∀ e, m.lookup address = some e →
      e.extra_pos ≠
        (if to_address < custom_text_address then HookExtraPos.loader
          else .tail) →
      processSoftbranch custom_text_address m address to_address opcode loc =
        .error (.differentSections address)) ∧
    (∀ m', processSoftbranch custom_text_address m address to_address opcode
        loc = .ok m' →
      ∃ e', m'.lookup address = some e' ∧
        e'.extra_pos =
          (if to_address < custom_text_address then HookExtraPos.loader
            else .tail)) := by
  refine ⟨?_, ?_, ?_, ?_⟩
  · intro e he hne
    unfold processSymbolPrePost
    dsimp only
    rw [he]
    dsimp only [Option.getD_some]
    rw [if_pos (Ne.symm hne)]
  · intro m' hok
    unfold processSymbolPrePost at hok
    dsimp only at hok
    set pos := (if from_addr < custom_text_address then HookExtraPos.loader
      else HookExtraPos.tail) with hpos
    set entry := (m.lookup from_addr).getD ⟨pos, [], []⟩ with hentry
    by_cases hcond : pos ≠ entry.extra_pos
    · rw [if_pos hcond] at hok
      exact absurd hok (by simp)
    · rw [if_neg hcond] at hok
      rw [not_ne_iff] at hcond
      have hm' := Except.ok.inj hok
      refine ⟨(if isPre = true then
          { entry with pre := entry.pre ++ [(symbol_address, loc)] }
        else { entry with post := entry.post ++ [(symbol_address, loc)] }),
        ?_, ?_⟩
      · rw [← hm']
        exact PrePostMap.lookup_insert _ _ _
      · cases isPre
        · rw [if_neg (by simp)]
          exact hcond.symm
        · rw [if_pos rfl]
          exact hcond.symm
  · intro e he hne
    unfold processSoftbranch
    dsimp only
    rw [he]
    dsimp only [Option.getD_some]
    rw [if_pos (Ne.symm hne)]
  · intro m' hok
    unfold processSoftbranch at hok
    dsimp only at hok
    set pos := (if to_address < custom_text_address then HookExtraPos.loader
      else HookExtraPos.tail) with hpos
    set entry := (m.lookup address).getD ⟨pos, [], []⟩ with hentry
    by_cases hcond : pos ≠ entry.extra_pos
    · rw [if_pos hcond] at hok
      exact absurd hok (by simp)
    · rw [if_neg hcond] at hok
      rw [not_ne_iff] at hcond
      split at hok
      · have hm' := Except.ok.inj hok
        refine ⟨{ entry with post := entry.post ++ [(to_address, loc)] },
          ?_, hcond.symm⟩
        rw [← hm']
        exact PrePostMap.lookup_insert _ _ _
      · split at hok
        · have hm' := Except.ok.inj hok
          refine ⟨{ entry with pre := entry.pre ++ [(to_address, loc)] },
            ?_, hcond.symm⟩
          rw [← hm']
          exact PrePostMap.lookup_insert _ _ _
        · exact absurd hok (by simp)

/-- C2 witness: a symbol `Pre` hook at `0x100000` (arena `Loader`) collides
with a stored `Tail` entry, and a fresh symbol `Post` hook lands in
`Loader`. -/
theorem pre_post_arena_spec_witness :
    processSymbolPrePost 0x500000 [(0x100000, ⟨.tail, [], []⟩)] true 0x100000
      0x600000 ⟨[], 1⟩ = .error (.differentSections 0x100000) ∧
    (∃ e', PrePostMap.lookup [(0x100000,
        ⟨.loader, [], [(0x600000, ⟨[], 1⟩)]⟩)] 0x100000 = some e' ∧
      e'.extra_pos =
        (if 0x100000 < 0x500000 then HookExtraPos.loader else .tail)) :=
  ⟨(pre_post_arena_spec 0x500000 [(0x100000, ⟨.tail, [], []⟩)] true 0x100000
      0x600000 0x100000 0x600000 [] ⟨[], 1⟩).1 ⟨.tail, [], []⟩ (by decide)
      (by decide),
   (pre_post_arena_spec 0x500000 [] false 0x100000 0x600000 0x100000 0x600000
      [] ⟨[], 1⟩).2.1 [(0x100000, ⟨.loader, [], [(0x600000, ⟨[], 1⟩)]⟩)]
      (by decide)⟩

/-! ## C7 — missing-field errors of the tag parser -/

/-- C7: a non-empty tag with `k` `$`-separated fields, `1 ≤ k < 5`, fails
with the `(k+1)`-th error of the sequence MissingKind, MissingArgument,
MissingFile, MissingLine, MissingCounter, and the empty tag fails with
MissingKind. -/
theorem hook_meta_missing_errors (s : List Char) (k : Nat)
    (hs : s ≠ []) (hk : (splitDollar s).length = k)
    (hk1 : 1 ≤ k) (hk5 : k < 5) :
    HookMeta.from_str s = .error
      ([MetaParsingError.missingKind, .missingArgument, .missingFile,
        .missingLine, .missingCounter].getD k .missingKind) ∧
    HookMeta.from_str [] = .error .missingKind := by
  refine ⟨?_, by decide⟩
  unfold HookMeta.from_str
  rw [if_neg hs]
  rcases hL : splitDollar s with _ | ⟨a, _ | ⟨b, _ | ⟨c, _ | ⟨d, _ | ⟨e, t⟩⟩⟩⟩⟩ <;>
    rw [hL] at hk <;> simp only [List.length] at hk
  · omega
  · rw [← hk]; rfl
  · rw [← hk]; rfl
  · rw [← hk]; rfl
  · rw [← hk]; rfl
  · omega

/-- C7 witness: two fields give MissingFile. -/
theorem hook_meta_missing_errors_witness :
    ("a$b".toList ≠ ([] : List Char)) ∧
    (splitDollar "a$b".toList).length = 2 ∧
    HookMeta.from_str "a$b".toList = .error .missingFile ∧
    HookMeta.from_str [] = .error .missingKind := by
  have h := hook_meta_missing_errors "a$b".toList 2 (by decide) (by decide)
    (by decide) (by decide)
  exact ⟨by decide, by decide, h.1, h.2⟩

/-! ## C10 — fields after the fifth are ignored -/

/-- `splitDollar` never returns the empty list. -/
theorem splitDollar_ne_nil (s : List Char) : splitDollar s ≠ [] := by
  induction s with
  | nil => simp [splitDollar]
  | cons c t ih =>
    unfold splitDollar
    split
    · simp
    · cases hL : splitDollar t with
      | nil => exact absurd hL ih
      | cons f r => simp

/-- Fields produced by `splitDollar` contain no `$`. -/
theorem splitDollar_no_dollar (s : List Char) :
    ∀ f ∈ splitDollar s, '$' ∉ f := by
  induction s with
  | nil =>
    intro f hf
    simp only [splitDollar, List.mem_singleton] at hf
    simp [hf]
  | cons c t ih =>
    intro f hf
    unfold splitDollar at hf
    split at hf
    · rcases List.mem_cons.1 hf with rfl | hf'
      · simp
      · exact ih f hf'
    · rename_i hc
      cases hL : splitDollar t with
      | nil => exact absurd hL (splitDollar_ne_nil t)
      | cons f0 r =>
        rw [hL] at hf
        rcases List.mem_cons.1 hf with rfl | hf'
        · intro hmem
          rcases List.mem_cons.1 hmem with h1 | h2
          · exact hc h1.symm
          · exact ih f0 (hL ▸ List.mem_cons_self f0 r) h2
        · exact ih f (hL ▸ List.mem_cons_of_mem f0 hf')

/-- Splitting separates at the first `$` after a `$`-free field. -/
theorem splitDollar_append_cons (f rest : List Char) (hf : '$' ∉ f) :
    splitDollar (f ++ '$' :: rest) = f :: splitDollar rest := by
  induction f with
  | nil =>
    simp [splitDollar]
  | cons c f' ih =>
    have hc : c ≠ '$' := fun h => hf (h ▸ List.mem_cons_self c f')
    show splitDollar (c :: (f' ++ '$' :: rest)) = (c :: f') :: splitDollar rest
    conv_lhs => rw [splitDollar.eq_def]
    dsimp only
    rw [if_neg hc, ih (fun h => hf (List.mem_cons_of_mem c h))]

/-- Splitting a `$`-free string yields one field. -/
theorem splitDollar_of_no_dollar (f : List Char) (hf : '$' ∉ f) :
    splitDollar f = [f] := by
  induction f with
  | nil => rfl
  | cons c f' ih =>
    have hc : c ≠ '$' := fun h => hf (h ▸ List.mem_cons_self c f')
    unfold splitDollar
    rw [if_neg hc, ih (fun h => hf (List.mem_cons_of_mem c h))]

/-- `splitDollar` is a left inverse of `joinDollar` on `$`-free fields. -/
theorem splitDollar_joinDollar : ∀ fs : List (List Char), fs ≠ [] →
    (∀ f ∈ fs, '$' ∉ f) → splitDollar (joinDollar fs) = fs := by
  intro fs
  induction fs with
  | nil => intro h; exact absurd rfl h
  | cons f r ih =>
    intro _ hnd
    cases r with
    | nil =>
      show splitDollar (joinDollar [f]) = [f]
      unfold joinDollar
      exact splitDollar_of_no_dollar f (hnd f (List.mem_cons_self f []))
    | cons g r' =>
      show splitDollar (f ++ '$' :: joinDollar (g :: r')) = f :: g :: r'
      rw [splitDollar_append_cons f _ (hnd f (List.mem_cons_self f _)),
        ih (by simp) (fun x hx => hnd x (List.mem_cons_of_mem f hx))]

/-- The tag metadata parser reads only the first five fields. -/
theorem hook_meta_take5 (s : List Char)
    (hk : 5 ≤ (splitDollar s).length) :
    HookMeta.from_str s =
      HookMeta.from_str (joinDollar ((splitDollar s).take 5)) := by
  have hs : s ≠ [] := by
    intro h
    rw [h] at hk
    simp [splitDollar] at hk
  rcases hL : splitDollar s with _ | ⟨a, _ | ⟨b, _ | ⟨c, _ | ⟨d, _ | ⟨e, t⟩⟩⟩⟩⟩ <;>
    rw [hL] at hk <;> simp only [List.length] at hk <;> try omega
  have hnd := splitDollar_no_dollar s
  rw [hL] at hnd
  have htake : (a :: b :: c :: d :: e :: t).take 5 = [a, b, c, d, e] := by
    simp
  have hj : splitDollar (joinDollar [a, b, c, d, e]) = [a, b, c, d, e] :=
    splitDollar_joinDollar [a, b, c, d, e] (by simp)
      (fun f hf => hnd f (List.mem_append_left t hf))
  have hs5 : joinDollar [a, b, c, d, e] ≠ [] := by
    show a ++ '$' :: joinDollar [b, c, d, e] ≠ []
    simp
  rw [htake]
  unfold HookMeta.from_str
  rw [if_neg hs, if_neg hs5, hL, hj]

/-- C10: a tag of six or more fields whose first five parse to `info` parses
to the same `info`; the extra fields are silently discarded. -/
theorem hook_info_ignores_extra_fields (s : List Char) (info : HookInfo)
    (hk : 6 ≤ (splitDollar s).length)
    (h5 : HookInfo.from_str (joinDollar ((splitDollar s).take 5)) = .ok info) :
    HookInfo.from_str s = .ok info := by
  have hmeta := hook_meta_take5 s (by omega)
  unfold HookInfo.from_str at h5 ⊢
  rw [hmeta]
  exact h5

/-- C10 witness: two junk fields after a valid five-field `pre` tag. -/
theorem hook_info_ignores_extra_fields_witness :
    6 ≤ (splitDollar "pre$0x1$ME$10$0$junk$more".toList).length ∧
    HookInfo.from_str "pre$0x1$ME$10$0$junk$more".toList =
      .ok ⟨.pre 1, ⟨[97], 10⟩, 0⟩ :=
  ⟨by decide,
   hook_info_ignores_extra_fields "pre$0x1$ME$10$0$junk$more".toList
     ⟨.pre 1, ⟨[97], 10⟩, 0⟩ (by decide) (by decide)⟩

/-! ## C6 — symbol-safe path codec -/

/-- Flattened byte bits have length `8 * |bytes|`. -/
theorem bytesToBits_length (bytes : List Nat) :
    ((bytes.map byteToBits).flatten).length = 8 * bytes.length := by
  induction bytes with
  | nil => rfl
  | cons b t ih =>
    simp only [List.map_cons, List.flatten_cons, List.length_append, ih,
      List.length_cons]
    show 8 + 8 * t.length = 8 * (t.length + 1)
    omega

set_option maxRecDepth 4000 in
/-- Eight bits read back give the byte. -/
theorem bitsToNat_byteToBits : ∀ b < 256, bitsToNat (byteToBits b) = b := by
  decide

/-- A list of length five is a five-element list. -/
theorem len5_shape (g : List Bool) (h5 : g.length = 5) :
    ∃ a b c d e, g = [a, b, c, d, e] := by
  rcases g with _ | ⟨a, _ | ⟨b, _ | ⟨c, _ | ⟨d, _ | ⟨e, rest⟩⟩⟩⟩⟩
  · simp at h5
  · simp at h5
  · simp at h5
  · simp at h5
  · simp at h5
  · simp only [List.length_cons] at h5
    have hrest : rest = [] := List.length_eq_zero.1 (by omega)
    subst hrest
    exact ⟨a, b, c, d, e, rfl⟩

/-- Five bits read as a number stay below 32. -/
theorem bitsToNat_lt_32 (a b c d e : Bool) : bitsToNat [a, b, c, d, e] < 32 := by
  revert a b c d e
  decide

/-- Alphabet lookup round-trips through `decodeChar`. -/
theorem decodeChar_getD : ∀ v < 32,
    decodeChar (base32Alphabet.getD v 'A') = some v := by
  decide

/-- Reading five bits as a number and back is the identity. -/
theorem natToBits5_bitsToNat (a b c d e : Bool) :
    natToBits5 (bitsToNat [a, b, c, d, e]) = [a, b, c, d, e] := by
  revert a b c d e
  decide

/-- Flattening the 5-bit groups restores a bit string of 5-divisible
length. -/
theorem chunk5_flatten (l : List Bool) (h : l.length % 5 = 0) :
    (chunk5 l).flatten = l := by
  induction l using chunk5.induct with
  | case1 a b c d e t ih =>
    have ht : t.length % 5 = 0 := by
      simp only [List.length_cons] at h
      omega
    simp only [chunk5, List.flatten_cons, ih ht]
    rfl
  | case2 => rfl
  | case3 l h5 h0 =>
    exfalso
    rcases l with _ | ⟨a, _ | ⟨b, _ | ⟨c, _ | ⟨d, _ | ⟨e, t⟩⟩⟩⟩⟩
    · exact h0 rfl
    · simp at h
    · simp at h
    · simp at h
    · simp at h
    · exact h5 a b c d e t rfl

/-- All 5-bit groups of a 5-divisible bit string have length 5. -/
theorem chunk5_mem_length (l : List Bool) (h : l.length % 5 = 0) :
    ∀ g ∈ chunk5 l, g.length = 5 := by
  induction l using chunk5.induct with
  | case1 a b c d e t ih =>
    have ht : t.length % 5 = 0 := by
      simp only [List.length_cons] at h
      omega
    intro g hg
    simp only [chunk5] at hg
    rcases List.mem_cons.1 hg with rfl | hg'
    · rfl
    · exact ih ht g hg'
  | case2 => intro g hg; exact absurd hg (List.not_mem_nil g)
  | case3 l h5 h0 =>
    intro g hg
    exfalso
    rcases l with _ | ⟨a, _ | ⟨b, _ | ⟨c, _ | ⟨d, _ | ⟨e, t⟩⟩⟩⟩⟩
    · exact h0 rfl
    · simp at h
    · simp at h
    · simp at h
    · simp at h
    · exact h5 a b c d e t rfl

/-- Flatten of all-length-5 groups has length `5 * groups`. -/
theorem flatten_length_of_len5 (gs : List (List Bool))
    (h : ∀ g ∈ gs, g.length = 5) : gs.flatten.length = 5 * gs.length := by
  induction gs with
  | nil => rfl
  | cons g t ih =>
    simp only [List.flatten_cons, List.length_append,
      h g (List.mem_cons_self g t),
      ih (fun x hx => h x (List.mem_cons_of_mem g hx)), List.length_cons]
    omega

/-- Decoding the encoded symbols of 5-bit groups yields their values. -/
theorem decodeChars_encoded (gs : List (List Bool))
    (hg : ∀ g ∈ gs, g.length = 5) :
    decodeChars (gs.map (fun g => base32Alphabet.getD (bitsToNat g) 'A')) =
      some (gs.map bitsToNat) := by
  induction gs with
  | nil => rfl
  | cons g t ih =>
    have h5 := hg g (List.mem_cons_self g t)
    obtain ⟨a, b, c, d, e, rfl⟩ := len5_shape g h5
    simp only [List.map_cons]
    unfold decodeChars
    rw [decodeChar_getD _ (bitsToNat_lt_32 a b c d e),
      ih (fun x hx => hg x (List.mem_cons_of_mem _ hx))]

/-- Re-expanding decoded group values restores the groups. -/
theorem natToBits5_groups (gs : List (List Bool))
    (hg : ∀ g ∈ gs, g.length = 5) :
    ((gs.map bitsToNat).map natToBits5).flatten = gs.flatten := by
  rw [List.map_map]
  have h : gs.map (natToBits5 ∘ bitsToNat) = gs.map id :=
    List.map_congr_left (fun g hgm => by
      obtain ⟨a, b, c, d, e, rfl⟩ := len5_shape g (hg g hgm)
      exact natToBits5_bitsToNat a b c d e)
  rw [h, List.map_id]

/-- No bit is set in a run of zero padding. -/
theorem any_id_replicate_false (k : Nat) :
    (List.replicate k false).any id = false := by
  induction k with
  | zero => rfl
  | succ k ih => simp only [List.replicate_succ, List.any_cons, ih]; rfl

/-- Regrouping the flattened bits of bytes restores the bytes. -/
theorem chunk8_bytes (bytes : List Nat) (hb : ∀ b ∈ bytes, b < 256) :
    (chunk8 ((bytes.map byteToBits).flatten)).map bitsToNat = bytes := by
  induction bytes with
  | nil => rfl
  | cons b t ih =>
    show (chunk8 (byteToBits b ++ (t.map byteToBits).flatten)).map bitsToNat =
      b :: t
    have hch : chunk8 (byteToBits b ++ (t.map byteToBits).flatten) =
        byteToBits b :: chunk8 ((t.map byteToBits).flatten) := rfl
    rw [hch]
    simp only [List.map_cons]
    rw [bitsToNat_byteToBits b (hb b (List.mem_cons_self b t)),
      ih (fun x hx => hb x (List.mem_cons_of_mem b hx))]

/-- Decoding an encoding restores the input bytes. -/
theorem base32_roundtrip (bytes : List Nat) (hb : ∀ b ∈ bytes, b < 256) :
    base32Decode (base32Encode bytes) = .ok bytes := by
  have hblen := bytesToBits_length bytes
  have hpadlen : (padBits ((bytes.map byteToBits).flatten)).length =
      8 * bytes.length + (5 - (8 * bytes.length) % 5) % 5 := by
    unfold padBits
    simp [hblen]
  have hpadmod : (padBits ((bytes.map byteToBits).flatten)).length % 5 = 0 := by
    rw [hpadlen]
    omega
  have hglen := chunk5_mem_length _ hpadmod
  have hflat := chunk5_flatten _ hpadmod
  have hLlen : (base32Encode bytes).length * 5 =
      (padBits ((bytes.map byteToBits).flatten)).length := by
    unfold base32Encode
    rw [List.length_map]
    have h5 := flatten_length_of_len5 _ hglen
    rw [hflat] at h5
    omega
  unfold base32Decode
  rw [if_neg (by rw [hpadlen] at hLlen; omega)]
  unfold base32Encode
  rw [decodeChars_encoded _ hglen]
  dsimp only
  rw [natToBits5_groups _ hglen, hflat]
  have hdlen : (base32Encode bytes).length * 5 / 8 = bytes.length := by
    rw [hLlen, hpadlen]
    omega
  have hdlen' : ((chunk5 (padBits ((bytes.map byteToBits).flatten))).map
      (fun g => base32Alphabet.getD (bitsToNat g) 'A')).length * 5 / 8 =
      bytes.length := by
    have : base32Encode bytes = (chunk5 (padBits
        ((bytes.map byteToBits).flatten))).map
        (fun g => base32Alphabet.getD (bitsToNat g) 'A') := rfl
    rw [← this, hdlen]
  rw [hdlen']
  unfold padBits
  rw [show 8 * bytes.length = ((bytes.map byteToBits).flatten).length from
    hblen.symm, List.take_left, List.drop_left, any_id_replicate_false]
  rw [if_neg (by simp)]
  rw [chunk8_bytes bytes hb]

/-- `base32Decode` either fails `InvalidBase32` on an invalid input or
succeeds on a valid one. -/
theorem base32Decode_cases (s : List Char) :
    (base32Decode s = .error .invalidBase32 ∧ validBase32 s = false) ∨
    (∃ d, base32Decode s = .ok d ∧ validBase32 s = true) := by
  unfold base32Decode validBase32
  by_cases h1 : (s.length % 8 = 1 ∨ s.length % 8 = 3 ∨ s.length % 8 = 6)
  · rw [if_pos h1]
    left
    cases hd : decodeChars s <;> simp [h1]
  · rw [if_neg h1]
    cases hd : decodeChars s with
    | none => left; simp
    | some vals =>
      dsimp only
      by_cases h2 : (((vals.map natToBits5).flatten).drop
          (8 * (s.length * 5 / 8))).any id = true
      · rw [if_pos h2]
        left
        simp [h1, h2]
      · rw [if_neg h2]
        right
        refine ⟨_, rfl, ?_⟩
        have h2' : (((vals.map natToBits5).flatten).drop
            (8 * (s.length * 5 / 8))).any id = false := by simpa using h2
        rw [h2']
        simp [h1]

/-- C6 counterexample: the base32 encoding of `src/main.cpp` is
`ONZGGL3NMFUW4LTDOBYA`, not the claimed `ONXW443QMRSXGLLTOQ2XOLLJNY`
(which decodes to the unrelated bytes `sonspdes-st5w-in`). -/
theorem path_codec_example_counterexample :
    path_to_symbol_safe [115, 114, 99, 47, 109, 97, 105, 110, 46, 99, 112,
      112] = "ONZGGL3NMFUW4LTDOBYA".toList ∧
    "ONZGGL3NMFUW4LTDOBYA".toList ≠ "ONXW443QMRSXGLLTOQ2XOLLJNY".toList ∧
    symbol_safe_to_path "ONXW443QMRSXGLLTOQ2XOLLJNY".toList ≠
      .ok [115, 114, 99, 47, 109, 97, 105, 110, 46, 99, 112, 112] := by
  refine ⟨by decide, by decide, by decide⟩

/-- C6 (amended): for every byte string that is valid UTF-8, decoding the
encoding returns it unchanged (in particular
`encode("src/main.cpp") = "ONZGGL3NMFUW4LTDOBYA"` and decoding that string
returns exactly `src/main.cpp`); decoding fails `InvalidBase32` exactly on
inputs that are not valid unpadded RFC 4648 base32, and `InvalidUtf8`
exactly on valid base32 whose decoded bytes are not valid UTF-8. -/
theorem symbol_safe_codec_spec (p : List Nat) (s : List Char)
    (hp : utf8Valid p = true) (hb : ∀ b ∈ p, b < 256) :
    symbol_safe_to_path (path_to_symbol_safe p) = .ok p ∧
    (symbol_safe_to_path s = .error .invalidBase32 ↔ validBase32 s = false) ∧
    (symbol_safe_to_path s = .error .invalidUtf8 ↔
      ∃ d, base32Decode s = .ok d ∧ utf8Valid d = false) := by
  refine ⟨?_, ?_, ?_⟩
  · unfold symbol_safe_to_path path_to_symbol_safe
    rw [base32_roundtrip p hb]
    dsimp only
    rw [if_pos hp]
  · constructor
    · intro h
      rcases base32Decode_cases s with ⟨he, hv⟩ | ⟨d, hok, hv⟩
      · exact hv
      · unfold symbol_safe_to_path at h
        rw [hok] at h
        dsimp only at h
        split at h <;> simp at h
    · intro hv
      rcases base32Decode_cases s with ⟨he, hv'⟩ | ⟨d, hok, hv'⟩
      · unfold symbol_safe_to_path
        rw [he]
      · rw [hv'] at hv
        exact absurd hv (by simp)
  · constructor
    · intro h
      rcases base32Decode_cases s with ⟨he, hv⟩ | ⟨d, hok, hv⟩
      · unfold symbol_safe_to_path at h
        rw [he] at h
        simp at h
      · unfold symbol_safe_to_path at h
        rw [hok] at h
        dsimp only at h
        by_cases hu : utf8Valid d = true
        · rw [if_pos hu] at h
          simp at h
        · exact ⟨d, hok, by simpa using hu⟩
    · rintro ⟨d, hok, hu⟩
      unfold symbol_safe_to_path
      rw [hok]
      dsimp only
      rw [if_neg (by simp [hu])]

/-- C6 witness: the amended theorem at the `src/main.cpp` bytes. -/
theorem symbol_safe_codec_spec_witness :
    utf8Valid [115, 114, 99, 47, 109, 97, 105, 110, 46, 99, 112, 112] =
      true ∧
    symbol_safe_to_path (path_to_symbol_safe
      [115, 114, 99, 47, 109, 97, 105, 110, 46, 99, 112, 112]) =
      .ok [115, 114, 99, 47, 109, 97, 105, 110, 46, 99, 112, 112] :=
  ⟨by decide,
   (symbol_safe_codec_spec
      [115, 114, 99, 47, 109, 97, 105, 110, 46, 99, 112, 112] []
      (by decide) (by decide)).1⟩

/-! ## C8 — `.hks` reader errors and key/value parsing -/

/-- `takeWhile` stops exactly at the first failing element. -/
theorem takeWhile_append_cons {p : Char → Bool} (l r : List Char) (c : Char)
    (hl : ∀ x ∈ l, p x = true) (hc : p c = false) :
    ((l ++ c :: r).takeWhile p) = l := by
  induction l with
  | nil => simp [List.takeWhile_cons, hc]
  | cons x l' ih =>
    simp [List.takeWhile_cons, hl x (List.mem_cons_self x l'),
      ih (fun y hy => hl y (List.mem_cons_of_mem x hy))]

/-- `dropWhile` reaches exactly the first failing element. -/
theorem dropWhile_append_cons {p : Char → Bool} (l r : List Char) (c : Char)
    (hl : ∀ x ∈ l, p x = true) (hc : p c = false) :
    ((l ++ c :: r).dropWhile p) = c :: r := by
  induction l with
  | nil => simp [List.dropWhile_cons, hc]
  | cons x l' ih =>
    simp [List.dropWhile_cons, hl x (List.mem_cons_self x l'),
      ih (fun y hy => hl y (List.mem_cons_of_mem x hy))]

/-- A property line splits at its first `:`: the key is the trimmed,
lowercased text before it, the value the trimmed text after it (later `:`
are preserved in the value). -/
theorem keyValueOfLine_split (pre suf : List Char) (hpre : ':' ∉ pre) :
    keyValueOfLine (pre ++ ':' :: suf) =
      some (lowerAscii (trimChars pre), trimChars suf) := by
  unfold keyValueOfLine
  have hcont : (pre ++ ':' :: suf).contains ':' = true := by
    simp
  rw [if_pos hcont]
  have hl : ∀ x ∈ pre, (fun c => decide (c ≠ ':')) x = true := by
    intro x hx
    simp only [decide_eq_true_eq]
    intro hxc
    exact hpre (hxc ▸ hx)
  rw [takeWhile_append_cons pre suf ':' hl (by simp),
    dropWhile_append_cons pre suf ':' hl (by simp)]
  rfl

/-- Errors escaping `readHksAux` point at a real input line of the matching
shape, provided the pending lines are numbered consistently with `ls`. -/
theorem readHksAux_error_line (ls : List (List Char)) :
    ∀ (rest : List (Nat × List Char))
      (st : Option (List Char × Nat × List (List Char × List Char)))
      (acc : List HksEntry) (e : HksError),
      (∀ p ∈ rest, 1 ≤ p.1 ∧ ls[p.1 - 1]? = some p.2) →
      readHksAux rest st acc = .error e →
      1 ≤ e.line ∧ ∃ raw, ls[e.line - 1]? = some raw ∧
        (∃ c, (stripLine raw).head? = some c ∧ c.isWhitespace = true) ∧
        (match e with
         | .invalidTitleLine _ => True
         | .invalidKeyValueLine _ => keyValueOfLine (stripLine raw) = none
         | .emptyKey _ => ∃ v, keyValueOfLine (stripLine raw) = some ([], v)
         | .emptyValue _ => ∃ k, keyValueOfLine (stripLine raw) = some (k, [])
         | .duplicateKey _ key =>
            ∃ v, keyValueOfLine (stripLine raw) = some (key, v)) := by
  intro rest
  induction rest with
  | nil =>
    intro st acc e hnum h
    rcases st with _ | ⟨t, ti, kv⟩ <;> exact absurd h (by simp [readHksAux])
  | cons p rest ih =>
    obtain ⟨i, raw⟩ := p
    intro st acc e hnum h
    have hnum' : ∀ q ∈ rest, 1 ≤ q.1 ∧ ls[q.1 - 1]? = some q.2 :=
      fun q hq => hnum q (List.mem_cons_of_mem _ hq)
    obtain ⟨hi1, hiraw⟩ := hnum (i, raw) (List.mem_cons_self _ _)
    unfold readHksAux at h
    dsimp only at h
    by_cases hl : stripLine raw = []
    · rw [dif_pos hl] at h
      exact ih st acc e hnum' h
    · rw [dif_neg hl] at h
      by_cases hw : ((stripLine raw).head hl).isWhitespace = true
      · rw [if_pos hw] at h
        have hwI : ∃ c, (stripLine raw).head? = some c ∧
            c.isWhitespace = true := ⟨_, List.head?_eq_head hl, hw⟩
        rcases st with _ | ⟨t, ti, kv⟩
        · have he := (Except.error.inj h)
          subst he
          exact ⟨hi1, raw, hiraw, hwI, trivial⟩
        · cases hkv : keyValueOfLine (stripLine raw) with
          | none =>
            rw [hkv] at h
            dsimp only at h
            have he := (Except.error.inj h)
            subst he
            exact ⟨hi1, raw, hiraw, hwI, hkv⟩
          | some kvp =>
            obtain ⟨key, value⟩ := kvp
            rw [hkv] at h
            dsimp only at h
            by_cases hk : key = []
            · rw [if_pos hk] at h
              have he := (Except.error.inj h)
              subst he
              exact ⟨hi1, raw, hiraw, hwI, ⟨value, hk ▸ hkv⟩⟩
            · rw [if_neg hk] at h
              by_cases hv : value = []
              · rw [if_pos hv] at h
                have he := (Except.error.inj h)
                subst he
                exact ⟨hi1, raw, hiraw, hwI, ⟨key, hv ▸ hkv⟩⟩
              · rw [if_neg hv] at h
                by_cases hdup : kvHasKey kv key = true
                · rw [if_pos hdup] at h
                  have he := (Except.error.inj h)
                  subst he
                  exact ⟨hi1, raw, hiraw, hwI, ⟨value, hkv⟩⟩
                · rw [if_neg hdup] at h
                  exact ih _ _ e hnum' h
      · rw [if_neg hw] at h
        rcases st with _ | ⟨t, ti, kv⟩
        · exact ih _ _ e hnum' h
        · exact ih _ _ e hnum' h

/-- Members of `numberFrom n l` are the elements of `l` numbered from
`n`. -/
theorem numberFrom_mem {α : Type} :
    ∀ (l : List α) (n : Nat) (p : Nat × α), p ∈ numberFrom n l →
      ∃ j, j < l.length ∧ p.1 = n + j ∧ l[j]? = some p.2 := by
  intro l
  induction l with
  | nil =>
    intro n p hp
    rw [numberFrom] at hp
    exact absurd hp (List.not_mem_nil p)
  | cons x t ih =>
    intro n p hp
    rw [numberFrom] at hp
    rcases List.mem_cons.1 hp with rfl | hp'
    · exact ⟨0, by simp, by simp, by simp⟩
    · obtain ⟨j, hj, hpj, hjv⟩ := ih (n + 1) p hp'
      refine ⟨j + 1, by simp only [List.length_cons]; omega, by omega, ?_⟩
      simpa using hjv

/-- C8: every error escaping the `.hks` reader carries the 1-based number of
an offending input line — a line that (after comment stripping and
right-trimming) is non-empty, starts with whitespace, and has the shape the
error names: no `:` for InvalidKeyValueLine, an empty trimmed key for
EmptyKey, an empty trimmed value for EmptyValue, and the reported key for
DuplicateKey — and every well-formed property line is split at its first
`:` only, the key trimmed and ASCII-lowercased, the value trimmed but
otherwise preserved (so it may itself contain `:`). -/
theorem hks_reader_spec :
    (∀ (ls : List (List Char)) (e : HksError), readHks ls = .error e →
      1 ≤ e.line ∧ ∃ raw, ls[e.line - 1]? = some raw ∧
        (∃ c, (stripLine raw).head? = some c ∧ c.isWhitespace = true) ∧
        (match e with
         | .invalidTitleLine _ => True
         | .invalidKeyValueLine _ => keyValueOfLine (stripLine raw) = none
         | .emptyKey _ => ∃ v, keyValueOfLine (stripLine raw) = some ([], v)
         | .emptyValue _ => ∃ k, keyValueOfLine (stripLine raw) = some (k, [])
         | .duplicateKey _ key =>
            ∃ v, keyValueOfLine (stripLine raw) = some (key, v))) ∧
    (∀ pre suf : List Char, ':' ∉ pre →
      keyValueOfLine (pre ++ ':' :: suf) =
        some (lowerAscii (trimChars pre), trimChars suf)) := by
  constructor
  · intro ls e herr
    apply readHksAux_error_line ls (numberFrom 1 ls) none [] e ?_ herr
    intro p hp
    obtain ⟨j, hj, hp1, hpv⟩ := numberFrom_mem ls 1 p hp
    refine ⟨by omega, ?_⟩
    have hj1 : p.1 - 1 = j := by omega
    rw [hj1]
    exact hpv
  · exact fun pre suf h => keyValueOfLine_split pre suf h

/-- C8 witness: an indented first line errors InvalidTitleLine(1), and a
property line with two colons keeps the second in the value. -/
theorem hks_reader_spec_witness :
    (1 ≤ (HksError.invalidTitleLine 1).line ∧ ∃ raw,
      [[' ', 'a']][(HksError.invalidTitleLine 1).line - 1]? = some raw ∧
      (∃ c, (stripLine raw).head? = some c ∧ c.isWhitespace = true) ∧ True) ∧
    keyValueOfLine (" Key ".toList ++ ':' :: " va:lue ".toList) =
      some (lowerAscii (trimChars " Key ".toList),
        trimChars " va:lue ".toList) :=
  ⟨hks_reader_spec.1 [[' ', 'a']] (.invalidTitleLine 1) (by decide),
   hks_reader_spec.2 " Key ".toList " va:lue ".toList (by decide)⟩

end Magwi
